import Mathlib

/-!
Verification of the rist-rs transport substrate against its specification.

This file gives a shallow embedding, in Lean, of the parts of the repository
that the checked properties are about:

* the reorder ring buffer (`crates/rist-rs-util/src/reorder/ring/mod.rs`),
* the bounded MPMC channel (`crates/rist-rs-util/src/channel/mpmc.rs`),
* the non-blocking message streams
  (`crates/rist-rs-buffers/src/stream/message/non_blocking.rs`).

Machine integers are modelled as `Nat` with explicit reductions modulo the
relevant power of two.  The sequence-number type `S` (one of u8/u16/u32/u64)
is modelled by a modulus parameter `M = 2^k`; values are naturals `< M`.
`usize`/`u64` arithmetic is reduced modulo `2^64` wherever wrap-around can
occur on reachable states.
-/

namespace RistRs

/-! ## Reorder ring buffer

Embedding of `ReorderRingBuffer` from
`crates/rist-rs-util/src/reorder/ring/mod.rs`.  The generic packet type `P`
with its `OrderedPacket` capability is a type together with a projection
`seqOf : P → Nat`; the sequence-number type is modelled by the modulus `M`.
-/

/-- `u64` modulus, for the metric counters. -/
def U64 : Nat := 18446744073709551616

/-- Increment a `u64` counter (wrapping, as in release-mode Rust). -/
def cInc (x : Nat) : Nat := (x + 1) % U64

/-- Mirror of `ReorderQueueEvent` from
`rist-rs-core/src/traits/queue/reorder.rs`. -/
inductive REvent (P : Type) where
  | packet (p : P)
  | needMore
  | missing
  | reset (s : Nat)
  deriving DecidableEq, Repr

/-- State of `ReorderRingBuffer<S, P>`.  `data` is the `StaticVec<Option<P>>`
backing store (its length is the construction capacity and never changes). -/
structure Ring (P : Type) where
  data : List (Option P)
  writePos : Nat
  readPos : Nat
  readSeq : Nat
  writeSeq : Nat
  resetFlag : Bool
  mLost : Nat
  mDelivered : Nat
  mDropped : Nat
  mRejected : Nat
  mReordered : Nat
  deriving Repr, DecidableEq

/-- `ReorderRingBuffer::new(len)`: all slots `None`, heads and sequence
numbers zero, reset flag clear, zeroed metrics. -/
def Ring.init (P : Type) (len : Nat) : Ring P :=
  { data := List.replicate len none
    writePos := 0, readPos := 0, readSeq := 0, writeSeq := 0
    resetFlag := false
    mLost := 0, mDelivered := 0, mDropped := 0, mRejected := 0, mReordered := 0 }

/-- `ReorderRingBuffer::advance`: step an iterator position, wrapping at
`len`.  (The source increments in place and returns the old value; we return
the new position and let call sites keep the old one.) -/
def advancePos (pos len : Nat) : Nat :=
  if pos + 1 ≥ len then 0 else pos + 1

variable {P : Type}

/-- `ReorderRingBuffer::can_write`:
`write_pos != (read_pos - 1 + len) as usize % len`.  The `i64` detour in the
source never under- or overflows for `0 < len < 2^63`, so it is plain
arithmetic here. -/
def Ring.canWrite (st : Ring P) : Bool :=
  st.writePos ≠ (st.readPos + st.data.length - 1) % st.data.length

/-- `ReorderRingBuffer::is_seq_reset` (with `M` the sequence modulus, so
`S::max_value() = M - 1`).  `diff` is the absolute difference, computed in
`u64` exactly as in the source; `max_value - len` does not underflow as long
as the capacity is at most `M - 1`, which holds for every buffer this
repository constructs. -/
def isSeqReset (M len last current : Nat) : Bool :=
  let diff := if current < last then last - current else current - last
  diff > len && diff ≤ (M - 1) - len

/-- `ReorderRingBuffer::is_expired`: the packet is in the past in the
pivot-window sense.  `pivot = S::max_value() / 2 = (M - 1) / 2` with integer
division. -/
def isExpired (M readSeq ps : Nat) : Bool :=
  readSeq ≠ ps &&
    (let pivot := (M - 1) / 2
     if ps > readSeq then ps - readSeq > pivot else readSeq - ps < pivot)

/-- `ReorderRingBuffer::push`: write at the write head if the buffer can be
written, else hand the packet back.  An overwrite of a non-empty cell is only
logged by the source, so the model just replaces the cell. -/
def Ring.push (st : Ring P) (p : P) : Option P × Ring P :=
  if st.canWrite then
    (none, { st with data := st.data.set st.writePos (some p)
                     writePos := advancePos st.writePos st.data.length })
  else
    (some p, st)

/-- Loop body of `ReorderRingBuffer::try_pop`, with an explicit fuel.  The
source loop terminates after at most `data.len()` iterations (the cursor
steps once per iteration and stops at the write head), so
`fuel = data.length` makes the `0` case unreachable from well-formed
states. -/
def tryPopAux (seqOf : P → Nat) (M : Nat) :
    Ring P → Nat → Nat → Option P × Ring P
  | st, _, 0 => (none, st)
  | st, cursor, fuel + 1 =>
    -- `valid_to_read`: the cell at `cursor` may be read iff it is not the
    -- write head.
    if st.writePos = cursor then (none, st)
    else
      match st.data.getD cursor none with
      | some p =>
        if seqOf p = st.readSeq then
          let st := if cursor ≠ st.readPos
            then { st with mReordered := cInc st.mReordered } else st
          (some p, { st with data := st.data.set cursor none })
        else if isExpired M st.readSeq (seqOf p) then
          let st := if cursor = st.readPos
            then { st with readPos := advancePos st.readPos st.data.length }
            else st
          let st := { st with mDropped := cInc st.mDropped
                              data := st.data.set cursor none }
          tryPopAux seqOf M st (advancePos cursor st.data.length) fuel
        else
          tryPopAux seqOf M st (advancePos cursor st.data.length) fuel
      | none =>
        let st := if cursor = st.readPos
          then { st with readPos := advancePos st.readPos st.data.length }
          else st
        tryPopAux seqOf M st (advancePos cursor st.data.length) fuel

/-- `ReorderRingBuffer::try_pop`. -/
def Ring.tryPop (seqOf : P → Nat) (M : Nat) (st : Ring P) :
    Option P × Ring P :=
  tryPopAux seqOf M st st.readPos st.data.length

/-- `ReorderRingBuffer::len`. -/
def Ring.len (st : Ring P) : Nat :=
  if st.writePos ≥ st.readPos then st.writePos - st.readPos
  else st.data.length - st.readPos + st.writePos

/-- `ReorderRingBuffer::reset`: clear every slot, zero both heads, set
`read_seq = s - 1` (wrapping) and `write_seq = s`, raise the reset flag. -/
def Ring.resetBuf (M : Nat) (st : Ring P) (s : Nat) : Ring P :=
  { st with data := List.replicate st.data.length none
            readPos := 0, writePos := 0
            readSeq := (s + (M - 1)) % M
            writeSeq := s
            resetFlag := true }

/-- `ReorderQueueInput::put` for the ring buffer: detect a sequence reset
first, then either reject an expired packet or record the new write sequence
and push. -/
def Ring.put (seqOf : P → Nat) (M : Nat) (st : Ring P) (p : P) :
    Option P × Ring P :=
  let s := seqOf p
  let st := if isSeqReset M st.data.length st.writeSeq s
    then st.resetBuf M s else st
  if !isExpired M st.readSeq s then
    Ring.push { st with writeSeq := s } p
  else
    (some p, { st with mRejected := cInc st.mRejected })

/-- `ReorderQueueOutput::next_event` for the ring buffer. -/
def Ring.nextEvent (seqOf : P → Nat) (M : Nat) (st : Ring P) :
    REvent P × Ring P :=
  if st.resetFlag then
    let st := { st with resetFlag := false, readSeq := (st.readSeq + 1) % M }
    (REvent.reset st.readSeq, st)
  else
    match st.tryPop seqOf M with
    | (some p, st) =>
      (REvent.packet p,
       { st with readSeq := (st.readSeq + 1) % M
                 mDelivered := cInc st.mDelivered })
    | (none, st) =>
      if st.len + 2 ≥ st.data.length then
        (REvent.missing,
         { st with readSeq := (st.readSeq + 1) % M, mLost := cInc st.mLost })
      else
        (REvent.needMore, st)

/-- `ReorderRingBuffer::skip_to_next`, with an explicit fuel for the loop.
The source loop terminates (each pass either drains the buffer, pops, or
advances `read_seq`, and after at most `M` advances every stored packet is
either popped or dropped as expired), so a large enough fuel makes the `0`
case unreachable. -/
def Ring.skipToNext (seqOf : P → Nat) (M : Nat) :
    Ring P → Nat → Option P × Ring P
  | st, 0 => (none, st)
  | st, fuel + 1 =>
    match st.tryPop seqOf M with
    | (none, st) =>
      if st.len = 0 then (none, st)
      else Ring.skipToNext seqOf M
        { st with readSeq := (st.readSeq + 1) % M } fuel
    | (some p, st) => (some p, { st with readSeq := (st.readSeq + 1) % M })

/-! ### Operation traces on a reorder ring

A client of the ring interleaves `put`, `next_event` and `skip_to_next`
calls.  `runOps` executes such a trace and collects every delivery: the
events emitted by `next_event` plus, for each `skip_to_next` that returns a
packet, a synthetic `packet` observation (a packet handed out by
`skip_to_next` is a delivery in the sense of the specification). -/

/-- One client-visible operation on a reorder ring.  `skip` carries the fuel
for the model of the `skip_to_next` loop; the source loop always terminates,
and every real execution is reproduced by a large enough fuel. -/
inductive ROp (P : Type) where
  | put (p : P)
  | next
  | skip (fuel : Nat)
  deriving Repr

/-- Run a trace of operations, collecting emitted events in order. -/
def runOps (seqOf : P → Nat) (M : Nat) :
    Ring P → List (ROp P) → Ring P × List (REvent P)
  | st, [] => (st, [])
  | st, ROp.put p :: ops => runOps seqOf M (Ring.put seqOf M st p).2 ops
  | st, ROp.next :: ops =>
    let r := Ring.nextEvent seqOf M st
    let rest := runOps seqOf M r.2 ops
    (rest.1, r.1 :: rest.2)
  | st, ROp.skip f :: ops =>
    let r := Ring.skipToNext seqOf M st f
    let rest := runOps seqOf M r.2 ops
    (rest.1,
     (match r.1 with
      | some p => [REvent.packet p]
      | none => []) ++ rest.2)

/-- The sequence numbers of the packets delivered by a trace, in delivery
order. -/
def deliveredSeqs (seqOf : P → Nat) (evs : List (REvent P)) : List Nat :=
  evs.filterMap fun e =>
    match e with
    | REvent.packet p => some (seqOf p)
    | _ => none

/-- `true` iff no `Reset` event appears in the event list. -/
def noResetEvent (evs : List (REvent P)) : Bool :=
  evs.all fun e =>
    match e with
    | REvent.reset _ => false
    | _ => true

/-- `true` iff no operation of the trace triggers a sequence reset when the
trace is run from `st` (so the buffer's `reset` routine is never invoked). -/
def resetFree (seqOf : P → Nat) (M : Nat) :
    Ring P → List (ROp P) → Bool
  | _, [] => true
  | st, ROp.put p :: ops =>
    !isSeqReset M st.data.length st.writeSeq (seqOf p) &&
      resetFree seqOf M (Ring.put seqOf M st p).2 ops
  | st, ROp.next :: ops => resetFree seqOf M (Ring.nextEvent seqOf M st).2 ops
  | st, ROp.skip f :: ops =>
    resetFree seqOf M (Ring.skipToNext seqOf M st f).2 ops

/-- Number of times a trace advances `read_seq` (i.e. calls
`next_read_seq`): once per `Packet`, `Missing` or `Reset` event, and once per
`skip_to_next` loop pass that advances. -/
def advSkip (seqOf : P → Nat) (M : Nat) : Ring P → Nat → Nat
  | _, 0 => 0
  | st, fuel + 1 =>
    match Ring.tryPop seqOf M st with
    | (none, st') =>
      if st'.len = 0 then 0
      else 1 + advSkip seqOf M { st' with readSeq := (st'.readSeq + 1) % M } fuel
    | (some _, _) => 1

/-- Total number of `read_seq` advances performed by a trace. -/
def advCount (seqOf : P → Nat) (M : Nat) :
    Ring P → List (ROp P) → Nat
  | _, [] => 0
  | st, ROp.put p :: ops => advCount seqOf M (Ring.put seqOf M st p).2 ops
  | st, ROp.next :: ops =>
    let r := Ring.nextEvent seqOf M st
    (match r.1 with
     | REvent.needMore => 0
     | _ => 1) + advCount seqOf M r.2 ops
  | st, ROp.skip f :: ops =>
    advSkip seqOf M st f + advCount seqOf M (Ring.skipToNext seqOf M st f).2 ops

/-- Pivot-window order on sequence numbers modulo `M`, as defined by the
specification's glossary: `a < b` iff `a ≠ b` and the forward wrap-distance
from `a` to `b` is at most `MAX / 2`. -/
def pivotLt (M a b : Nat) : Bool :=
  a ≠ b && (b + (M - a)) % M ≤ (M - 1) / 2

/-- The in-order trace used as a counterexample for global pivot-window
ordering: admit and deliver sequence numbers `0, 1, …, 200` one at a time
(modulus `2^8`, capacity 4). -/
def c1trace : List (ROp Nat) :=
  (List.range 201).flatMap fun i => [ROp.put i, ROp.next]

/-- The wrap-around trace used as a counterexample for unconditional reorder
idempotence: admit and deliver `0, 1, …, 255, 0` one at a time
(modulus `2^8`, capacity 4).  No reset is ever triggered, and sequence
number `0` is delivered twice. -/
def c2trace : List (ROp Nat) :=
  (List.range 257).flatMap fun i => [ROp.put (i % 256), ROp.next]

/-! ### Occupancy of the ring

Definitions used to state the implicit strict-occupancy property: the number
of non-empty slots, the ring-order index of a cell relative to the read
head, and the well-formedness invariant that every reachable ring state
satisfies. -/

/-- Number of occupied (`Some`) slots. -/
def countSome (l : List (Option P)) : Nat :=
  l.countP fun c => c.isSome

/-- Ring-order index of position `j` relative to the read head `r` in a
ring of `L` cells: the number of forward steps from `r` to `j`. -/
def ringIdx (L r j : Nat) : Nat := (j + L - r) % L

/-- Ring-order distance from the read head to the write head. -/
def Ring.dist (st : Ring P) : Nat :=
  ringIdx st.data.length st.readPos st.writePos

/-- Well-formedness of a ring state: the heads are in range and every cell
outside the half-open ring window `[read_pos, write_pos)` is empty.  This
holds for the initial state and is preserved by every operation. -/
def RingInv (st : Ring P) : Prop :=
  0 < st.data.length ∧
  st.readPos < st.data.length ∧
  st.writePos < st.data.length ∧
  ∀ j, j < st.data.length → st.dist ≤ ringIdx st.data.length st.readPos j →
    st.data.getD j none = none

/-! ## Bounded MPMC channel

Embedding of `Channel<T>` from `crates/rist-rs-util/src/channel/mpmc.rs`
(the crossbeam-style bounded queue).  `head`, `tail` and the slot stamps are
`usize` values, modelled as naturals reduced modulo `2^64`; `stamps` and
`msgs` are the `stamp` and `msg` fields of the `cap` slots
(`msgs[i] = none` models an uninitialised `MaybeUninit`).

The checked property is about one producer and one consumer calling
`try_send`/`try_receive` sequentially, so each call is embedded as a single
loop iteration on a quiescent channel: the compare-and-swap succeeds, and
the two retry paths (`spin`/`snooze`, which wait for a concurrent operation
to finish) are mapped to a `stuck` result, proved unreachable on every
state a sequential execution can produce. -/

/-- Bitwise complement of a `u64`/`usize` value (`!x` in Rust). -/
def lnot (x : Nat) : Nat := (U64 - 1) ^^^ x

variable {T Msg A : Type} {α : Type}

/-- State of `Channel<T>` (mpmc.rs lines 93-123). -/
structure Chan (T : Type) where
  stamps : List Nat
  msgs : List (Option T)
  head : Nat
  tail : Nat
  cap : Nat
  oneLap : Nat
  markBit : Nat
  deriving Repr, DecidableEq

/-- `Channel::with_capacity` (mpmc.rs lines 127-159): slot `i` starts with
stamp `i`, `mark_bit = (cap + 1).next_power_of_two()`,
`one_lap = mark_bit * 2`. -/
def Chan.withCapacity (T : Type) (cap : Nat) : Chan T :=
  let markBit := (cap + 1).nextPowerOfTwo
  let oneLap := markBit * 2
  { stamps := List.range cap
    msgs := List.replicate cap none
    head := 0
    tail := 0
    cap := cap
    oneLap := oneLap
    markBit := markBit }

/-- Result of `try_send` (`Result<(), TrySendError<T>>`); `full` and
`disconnected` hand the message back as in Rust.  `stuck` marks the two
spin/snooze retry paths of `start_send`, unreachable sequentially. -/
inductive SendRes (T : Type) where
  | ok
  | full (msg : T)
  | disconnected (msg : T)
  | stuck
  deriving DecidableEq, Repr

/-- Result of `try_recv` (`Result<T, TryRecvError>`); `stuck` marks the
spin/snooze retry paths of `start_recv`, unreachable sequentially. -/
inductive RecvRes (T : Type) where
  | got (msg : T)
  | empty
  | disconnected
  | stuck
  deriving DecidableEq, Repr

/-- One sequential `try_send` (mpmc.rs lines 338-345): a single iteration
of `start_send` (lines 161-230) followed by `write` (lines 233-246). -/
def Chan.trySend (ch : Chan T) (msg : T) : SendRes T × Chan T :=
  let tail := ch.tail
  if tail &&& ch.markBit ≠ 0 then
    (SendRes.disconnected msg, ch)
  else
    let index := tail &&& (ch.markBit - 1)
    let lap := tail &&& lnot (ch.oneLap - 1)
    let stamp := ch.stamps.getD index 0
    if tail = stamp then
      let newTail := if index + 1 < ch.cap then (tail + 1) % U64
                     else (lap + ch.oneLap) % U64
      (SendRes.ok,
        { ch with
            tail := newTail
            msgs := ch.msgs.set index (some msg)
            stamps := ch.stamps.set index ((tail + 1) % U64) })
    else if (stamp + ch.oneLap) % U64 = (tail + 1) % U64 then
      if (ch.head + ch.oneLap) % U64 = tail then (SendRes.full msg, ch)
      else (SendRes.stuck, ch)
    else (SendRes.stuck, ch)

/-- One sequential `try_recv` (mpmc.rs lines 348-356): a single iteration
of `start_recv` (lines 249-319) followed by `read` (lines 322-335).
Reading an uninitialised slot (undefined behaviour in the source) is
mapped to `stuck`; it is proved unreachable. -/
def Chan.tryRecv (ch : Chan T) : RecvRes T × Chan T :=
  let head := ch.head
  let index := head &&& (ch.markBit - 1)
  let lap := head &&& lnot (ch.oneLap - 1)
  let stamp := ch.stamps.getD index 0
  if (head + 1) % U64 = stamp then
    let newHead := if index + 1 < ch.cap then (head + 1) % U64
                   else (lap + ch.oneLap) % U64
    match ch.msgs.getD index none with
    | some msg =>
        (RecvRes.got msg,
          { ch with
              head := newHead
              msgs := ch.msgs.set index none
              stamps := ch.stamps.set index ((head + ch.oneLap) % U64) })
    | none => (RecvRes.stuck, ch)
  else if stamp = head then
    if ch.tail &&& lnot ch.markBit = head then
      if ch.tail &&& ch.markBit ≠ 0 then (RecvRes.disconnected, ch)
      else (RecvRes.empty, ch)
    else (RecvRes.stuck, ch)
  else (RecvRes.stuck, ch)

/-- `Channel::disconnect` (mpmc.rs lines 361-364): set the mark bit. -/
def Chan.disconnect (ch : Chan T) : Chan T :=
  { ch with tail := ch.tail ||| ch.markBit }

/-! ### Trace semantics and the FIFO specification model

`ChanOp` is one call by the producer (`send`) or the consumer (`recv`);
`Chan.run` replays a call trace and records each call's result.  `Fifo` is
the SPECIFICATION-side model, written from the spec's words: a bounded
queue of the construction capacity, `try_send` failing exactly when it
holds `cap` messages and `try_receive` failing exactly when it is empty,
delivering in send order.  C6 asserts that the channel and this queue
produce identical result traces. -/

/-- One call in a sequential single-producer single-consumer trace. -/
inductive ChanOp (T : Type) where
  | send (msg : T)
  | recv
  deriving DecidableEq, Repr

/-- Observable result of one call. -/
inductive ChanOut (T : Type) where
  | sent
  | sendFull (msg : T)
  | sendDisconnected (msg : T)
  | sendStuck
  | got (msg : T)
  | empty
  | recvDisconnected
  | recvStuck
  deriving DecidableEq, Repr

/-- Observation of a send result. -/
def sendOut : SendRes T → ChanOut T
  | SendRes.ok => ChanOut.sent
  | SendRes.full msg => ChanOut.sendFull msg
  | SendRes.disconnected msg => ChanOut.sendDisconnected msg
  | SendRes.stuck => ChanOut.sendStuck

/-- Observation of a receive result. -/
def recvOut : RecvRes T → ChanOut T
  | RecvRes.got msg => ChanOut.got msg
  | RecvRes.empty => ChanOut.empty
  | RecvRes.disconnected => ChanOut.recvDisconnected
  | RecvRes.stuck => ChanOut.recvStuck

/-- Replay a call trace against the channel, recording each result. -/
def Chan.run : Chan T → List (ChanOp T) → List (ChanOut T)
  | _, [] => []
  | ch, ChanOp.send msg :: ops =>
      let r := ch.trySend msg
      sendOut r.1 :: Chan.run r.2 ops
  | ch, ChanOp.recv :: ops =>
      let r := ch.tryRecv
      recvOut r.1 :: Chan.run r.2 ops

/-- Specification model: a bounded FIFO queue (from the spec's words, to be
compared with the channel). -/
structure Fifo (T : Type) where
  q : List T
  cap : Nat
  deriving Repr, DecidableEq

/-- The empty bounded queue. -/
def Fifo.init (T : Type) (cap : Nat) : Fifo T := { q := [], cap := cap }

/-- Spec model of `try_send`: fail exactly when the queue is at capacity,
otherwise append at the back. -/
def Fifo.trySend (f : Fifo T) (msg : T) : SendRes T × Fifo T :=
  if f.q.length = f.cap then (SendRes.full msg, f)
  else (SendRes.ok, { f with q := f.q ++ [msg] })

/-- Spec model of `try_receive`: fail exactly when the queue is empty,
otherwise yield the front element. -/
def Fifo.tryRecv (f : Fifo T) : RecvRes T × Fifo T :=
  match f.q with
  | [] => (RecvRes.empty, f)
  | msg :: rest => (RecvRes.got msg, { f with q := rest })

/-- Replay a call trace against the specification queue. -/
def Fifo.run : Fifo T → List (ChanOp T) → List (ChanOut T)
  | _, [] => []
  | f, ChanOp.send msg :: ops =>
      let r := f.trySend msg
      sendOut r.1 :: Fifo.run r.2 ops
  | f, ChanOp.recv :: ops =>
      let r := f.tryRecv
      recvOut r.1 :: Fifo.run r.2 ops

/-! ### Abstraction invariant for the channel

After `p` pops and `p + l.length` pushes, where `l` is the queue content,
the channel state is fixed: `head`/`tail` are determined by the operation
counts, and slot `i` holds the entry for push number `candOf cap p i` (the
unique number in `[p, p + cap)` congruent to `i` mod `cap`) — occupied
with the corresponding message if that push already happened, free with
the stamp announcing it otherwise.  `2^m` is the mark bit. -/

/-- The stamp the tail (resp. head) holds after `c` pushes (resp. pops):
lap counter in the high bits, slot index in the low bits. -/
def stampOf (cap oneLap c : Nat) : Nat := c / cap * oneLap + c % cap

/-- The number of the next push that uses slot `i` on or after operation
count `p`: the unique member of `[p, p + cap)` congruent to `i` mod
`cap`. -/
def candOf (cap p i : Nat) : Nat := p + (i + cap - p % cap) % cap

/-- Abstraction invariant: channel `ch` represents the queue `l` after `p`
pops (and hence `p + l.length` pushes); `2^m` is the mark bit. -/
def ChanInv (ch : Chan T) (m p : Nat) (l : List T) : Prop :=
  ch.markBit = 2 ^ m ∧
  ch.oneLap = 2 ^ (m + 1) ∧
  m + 1 ≤ 63 ∧
  0 < ch.cap ∧
  ch.cap < 2 ^ m ∧
  ch.stamps.length = ch.cap ∧
  ch.msgs.length = ch.cap ∧
  ch.head = stampOf ch.cap ch.oneLap p % U64 ∧
  ch.tail = stampOf ch.cap ch.oneLap (p + l.length) % U64 ∧
  l.length ≤ ch.cap ∧
  ∀ i, i < ch.cap →
    (candOf ch.cap p i < p + l.length →
      ch.stamps.getD i 0 = (stampOf ch.cap ch.oneLap (candOf ch.cap p i) + 1) % U64 ∧
      ch.msgs.getD i none = l[candOf ch.cap p i - p]?) ∧
    (p + l.length ≤ candOf ch.cap p i →
      ch.stamps.getD i 0 = stampOf ch.cap ch.oneLap (candOf ch.cap p i) % U64 ∧
      ch.msgs.getD i none = none)

instance decChanInv [DecidableEq T] (ch : Chan T) (m p : Nat) (l : List T) :
    Decidable (ChanInv ch m p l) := by
  unfold ChanInv
  infer_instance

deriving instance DecidableEq for Except

/-! ## Non-blocking message streams

Embedding of `crates/rist-rs-buffers/src/stream/message/non_blocking.rs`.
A `DuplexChannel` pair shares two bounded channels; the backend half
(`NonBlockingMessageStreamChannel`) sends on `sendCh` and receives on
`recvCh`, the user half (`NonBlockingMessageStream`) reads `sendCh` and
writes `recvCh`.  Sharing is modelled by threading the channel value. -/

/-- Backend state, `NonBlockingMessageStreamChannel` (non_blocking.rs
lines 43-47): the two channels of its `DuplexChannel`, the single rebuffer
slot and the drop counter. -/
structure MsgChannel (Msg : Type) where
  sendCh : Chan Msg
  recvCh : Chan Msg
  buffered : Option Msg
  dropped : Nat
  deriving Repr, DecidableEq

/-- User half, `NonBlockingMessageStream` (lines 115-121): `rxCh` is the
channel its `try_recv` reads (the backend's `sendCh`), `txCh` the one its
`try_send` writes. -/
structure MsgStream (Msg : Type) where
  txCh : Chan Msg
  rxCh : Chan Msg
  deriving Repr, DecidableEq

/-- Result of `NonBlockingMessageStreamChannel::on_recv`
(`Result<(), NonBlockingMessageStreamRxError>`). -/
inductive OnRecvRes (Msg : Type) where
  | ok
  | dropped
  | disconnected (data : Msg)
  | stuck
  deriving DecidableEq, Repr

/-- `on_recv` (lines 94-108): push the datagram into the backend's send
channel; count a drop when full, hand the datagram back when
disconnected. -/
def chOnRecv (b : MsgChannel Msg) (data : Msg) : OnRecvRes Msg × MsgChannel Msg :=
  match b.sendCh.trySend data with
  | (SendRes.ok, ch) => (OnRecvRes.ok, { b with sendCh := ch })
  | (SendRes.disconnected msg, ch) =>
      (OnRecvRes.disconnected msg, { b with sendCh := ch })
  | (SendRes.full _, ch) =>
      (OnRecvRes.dropped, { b with sendCh := ch, dropped := cInc b.dropped })
  | (SendRes.stuck, ch) => (OnRecvRes.stuck, { b with sendCh := ch })

/-- Result of `NonBlockingMessageStreamChannel::try_tx`
(`Result<StaticVec<u8>, NonBlockingMessageStreamTxError>`). -/
inductive TxRes (Msg : Type) where
  | ok (data : Msg)
  | empty
  | disconnected
  | stuck
  deriving DecidableEq, Repr

/-- `try_tx` (lines 76-88): yield the rebuffered message if the slot is
occupied (taking it out), otherwise pop the receive channel. -/
def tryTx (b : MsgChannel Msg) : TxRes Msg × MsgChannel Msg :=
  match b.buffered with
  | some data => (TxRes.ok data, { b with buffered := none })
  | none =>
    match b.recvCh.tryRecv with
    | (RecvRes.got data, ch) => (TxRes.ok data, { b with recvCh := ch })
    | (RecvRes.empty, ch) => (TxRes.empty, { b with recvCh := ch })
    | (RecvRes.disconnected, ch) => (TxRes.disconnected, { b with recvCh := ch })
    | (RecvRes.stuck, ch) => (TxRes.stuck, { b with recvCh := ch })

/-- `on_tx_failed` (lines 90-92): store the message in the rebuffer
slot. -/
def onTxFailed (b : MsgChannel Msg) (data : Msg) : MsgChannel Msg :=
  { b with buffered := some data }

/-- `NonBlockingStreamCollection::emplace_new_stream_with_data` (lines
242-255): build a fresh duplex-channel pair of capacity 1024, inject the
datagram through the backend's `on_recv` (whose result Rust `unwrap`s),
store the backend, return the user half.  The `on_recv` result is exposed
so that the success the `unwrap` relies on can be proved. -/
def emplaceWithData (Msg : Type) (data : Msg) :
    OnRecvRes Msg × MsgStream Msg × MsgChannel Msg :=
  let b0 : MsgChannel Msg :=
    { sendCh := Chan.withCapacity Msg 1024
      recvCh := Chan.withCapacity Msg 1024
      buffered := none
      dropped := 0 }
  let r := chOnRecv b0 data
  (r.1, { txCh := b0.recvCh, rxCh := r.2.sendCh }, r.2)

/-- Look up a peer's backend (`HashMap::get_mut` on the stream
collection, modelled as an association list). -/
def colLookup [DecidableEq A] (addr : A) : List (A × MsgChannel Msg) → Option (MsgChannel Msg)
  | [] => none
  | (a, b) :: rest => if a = addr then some b else colLookup addr rest

/-- Replace a peer's backend (`HashMap::insert` for a present key). -/
def colUpdate [DecidableEq A] (addr : A) (v : MsgChannel Msg) :
    List (A × MsgChannel Msg) → List (A × MsgChannel Msg)
  | [] => []
  | (a, b) :: rest =>
      if a = addr then (a, v) :: rest else (a, b) :: colUpdate addr v rest

/-- `NonBlockingMessageStreamAcceptor::on_rx` (lines 283-299): feed the
datagram to the peer's backend if one exists (replacing the stream when
the backend reports a disconnect, with the datagram the backend handed
back), or create a stream seeded with the datagram for an unknown peer. -/
def onRx [DecidableEq A] (col : List (A × MsgChannel Msg)) (data : Msg) (addr : A) :
    Option (MsgStream Msg) × List (A × MsgChannel Msg) :=
  match colLookup addr col with
  | some b =>
    match chOnRecv b data with
    | (OnRecvRes.ok, b') => (none, colUpdate addr b' col)
    | (OnRecvRes.dropped, b') => (none, colUpdate addr b' col)
    | (OnRecvRes.disconnected d, _) =>
        let r := emplaceWithData Msg d
        (some r.2.1, colUpdate addr r.2.2 col)
    | (OnRecvRes.stuck, b') => (none, colUpdate addr b' col)
  | none =>
    let r := emplaceWithData Msg data
    (some r.2.1, (addr, r.2.2) :: col)

/-- `NonBlockingMessageStream::try_recv` (lines 148-170) with the byte
buffer and message as lists: pop the stream's receive channel and copy
into `buf`, truncating to `buf.length` when the message is longer.
Returns the Rust `Option<Result<usize, _>>` (`Except Unit` standing for
`NonBlockingMessageStreamError::Closed`), the buffer contents after the
copy, and the channel state. -/
def streamTryRecv (ch : Chan (List α)) (buf : List α) :
    Option (Except Unit Nat) × List α × Chan (List α) :=
  match ch.tryRecv with
  | (RecvRes.got data, ch') =>
      if data.length < buf.length then
        (some (Except.ok data.length), data ++ buf.drop data.length, ch')
      else if buf.length < data.length then
        (some (Except.ok buf.length), data.take buf.length, ch')
      else
        (some (Except.ok data.length), data, ch')
  | (RecvRes.disconnected, ch') => (some (Except.error ()), buf, ch')
  | (RecvRes.empty, ch') => (none, buf, ch')
  | (RecvRes.stuck, ch') => (none, buf, ch')

/-- One `io.try_send_to` response in the tx pump:
`None` (would block), `Some(Err(_))`, or `Some(Ok(_))`. -/
inductive IoRes where
  | wouldBlock
  | err
  | ok
  deriving DecidableEq, Repr

/-- The per-stream tx pump loop of `accept` (lines 313-338) / `run`
(lines 398-423): take messages with `try_tx` and hand them to the
transport, which answers with the next element of `ios`; rebuffer and
stop on would-block, rebuffer and abort on a transport error, stop when
the stream is drained or disconnected.  Returns the backend, the messages
the transport accepted, and whether the loop aborted with an error.
`try_tx` runs in every iteration exactly as in the source; the pure
answer list is destructured first (unobservable reordering, for
structural recursion), and an exhausted `ios` answers would-block. -/
def pumpStream (b : MsgChannel Msg) (ios : List IoRes) : MsgChannel Msg × List Msg × Bool :=
  match ios with
  | [] =>
    match tryTx b with
    | (TxRes.ok data, b') => (onTxFailed b' data, [], false)
    | (TxRes.empty, b') => (b', [], false)
    | (TxRes.disconnected, b') => (b', [], false)
    | (TxRes.stuck, b') => (b', [], false)
  | io :: rest =>
    match tryTx b with
    | (TxRes.ok data, b') =>
      match io with
      | IoRes.wouldBlock => (onTxFailed b' data, [], false)
      | IoRes.err => (onTxFailed b' data, [], true)
      | IoRes.ok =>
          let r := pumpStream b' rest
          (r.1, data :: r.2.1, r.2.2)
    | (TxRes.empty, b') => (b', [], false)
    | (TxRes.disconnected, b') => (b', [], false)
    | (TxRes.stuck, b') => (b', [], false)

/-! ### Concrete states used by examples and witnesses

`chanT2` is `Chan.withCapacity Nat 2` written out (the equality is proved
below); `chanB2` is the same state for byte-list messages. -/

/-- A fresh capacity-2 channel of naturals:
`mark_bit = (2+1).next_power_of_two() = 4`, `one_lap = 8`. -/
def chanT2 : Chan Nat :=
  { stamps := [0, 1], msgs := [none, none], head := 0, tail := 0,
    cap := 2, oneLap := 8, markBit := 4 }

/-- A fresh capacity-2 channel of byte-list messages. -/
def chanB2 : Chan (List Nat) :=
  { stamps := [0, 1], msgs := [none, none], head := 0, tail := 0,
    cap := 2, oneLap := 8, markBit := 4 }

/-! ## Lemmas about the reorder ring -/

set_option maxRecDepth 100000

/-- Sanity check, `push_pop_basic` from `reorder/ring/test.rs`: put seq 0,
the next event is `Packet(0)`. -/
example :
    let st := Ring.init Nat 32
    let r1 := Ring.put id (2 ^ 32) st 0
    r1.1 = none ∧ (Ring.nextEvent id (2 ^ 32) r1.2).1 = REvent.packet 0 := by
  decide

/-- Sanity check, `push_full_buffer`: capacity 3 accepts two packets and
rejects the third. -/
example :
    let st := Ring.init Nat 3
    let r1 := Ring.put id (2 ^ 32) st 0
    let r2 := Ring.put id (2 ^ 32) r1.2 1
    let r3 := Ring.put id (2 ^ 32) r2.2 2
    r1.1 = none ∧ r2.1 = none ∧ r3.1 = some 2 ∧ r3.2.len = 2 := by
  decide

/-- Sanity check, `detect_reset_start`: capacity 32, putting seq 33 resets
the buffer. -/
example :
    let st := Ring.init Nat 32
    let r1 := Ring.put id (2 ^ 32) st 33
    (Ring.nextEvent id (2 ^ 32) r1.2).1 = REvent.reset 33 := by
  decide

/-- Sanity check, `reject_late`: capacity 32, putting seq `u32::MAX - 31` is
rejected without a reset. -/
example :
    let st := Ring.init Nat 32
    let r1 := Ring.put id (2 ^ 32) st (2 ^ 32 - 32)
    r1.1 = some (2 ^ 32 - 32) ∧ r1.2.mRejected = 1 ∧
      (Ring.nextEvent id (2 ^ 32) r1.2).1 = REvent.needMore := by
  decide

/-- `try_pop` leaves `read_seq`, `write_seq`, the reset flag, the write head
and the slot count untouched. -/
theorem tryPopAux_pres (seqOf : P → Nat) (M : Nat) (st : Ring P)
    (c f : Nat) :
    (tryPopAux seqOf M st c f).2.readSeq = st.readSeq ∧
    (tryPopAux seqOf M st c f).2.writeSeq = st.writeSeq ∧
    (tryPopAux seqOf M st c f).2.resetFlag = st.resetFlag ∧
    (tryPopAux seqOf M st c f).2.writePos = st.writePos ∧
    (tryPopAux seqOf M st c f).2.data.length = st.data.length := by
  induction f generalizing st c with
  | zero => simp [tryPopAux]
  | succ f ih =>
    rw [tryPopAux]
    split
    · simp
    · cases hd : st.data.getD c none with
      | some p =>
        simp only [hd]
        by_cases h1 : seqOf p = st.readSeq
        · rw [if_pos h1]
          by_cases h2 : c ≠ st.readPos <;>
            simp [h2, List.length_set]
        · rw [if_neg h1]
          by_cases h2 : isExpired M st.readSeq (seqOf p) = true
          · rw [if_pos h2]
            by_cases h3 : c = st.readPos <;>
              · simp only [h3, if_pos, if_neg, ite_true, ite_false]
                refine ⟨(ih _ _).1.trans ?_, (ih _ _).2.1.trans ?_,
                  (ih _ _).2.2.1.trans ?_, (ih _ _).2.2.2.1.trans ?_,
                  (ih _ _).2.2.2.2.trans ?_⟩ <;> simp [List.length_set]
          · rw [if_neg h2]
            exact ih _ _
      | none =>
        simp only [hd]
        by_cases h3 : c = st.readPos <;>
          · simp only [h3, if_pos, if_neg, ite_true, ite_false]
            refine ⟨(ih _ _).1.trans ?_, (ih _ _).2.1.trans ?_,
              (ih _ _).2.2.1.trans ?_, (ih _ _).2.2.2.1.trans ?_,
              (ih _ _).2.2.2.2.trans ?_⟩ <;> simp

/-- A packet returned by `try_pop` carries exactly the current `read_seq`. -/
theorem tryPopAux_some_seq (seqOf : P → Nat) (M : Nat) (st : Ring P)
    (c f : Nat) (p : P) (st' : Ring P)
    (h : tryPopAux seqOf M st c f = (some p, st')) :
    seqOf p = st.readSeq := by
  induction f generalizing st c with
  | zero => simp [tryPopAux] at h
  | succ f ih =>
    revert h
    rw [tryPopAux]
    split
    · intro h; simp at h
    · cases hd : st.data.getD c none with
      | some q =>
        simp only [hd]
        by_cases h1 : seqOf q = st.readSeq
        · rw [if_pos h1]
          by_cases h2 : c ≠ st.readPos <;> intro h <;> simp [h2] at h <;>
            rw [← h.1] <;> exact h1
        · rw [if_neg h1]
          by_cases h2 : isExpired M st.readSeq (seqOf q) = true
          · rw [if_pos h2]
            by_cases h3 : c = st.readPos <;>
              · simp only [h3, ite_true, ite_false]
                intro h
                exact (ih _ _ h).trans (by simp)
          · rw [if_neg h2]
            intro h
            exact ih _ _ h
      | none =>
        simp only [hd]
        by_cases h3 : c = st.readPos <;>
          · simp only [h3, ite_true, ite_false]
            intro h
            exact (ih _ _ h).trans (by simp)

/-! ## C1 — in-order delivery -/

/-- C1 (counterexample).  The global pivot-window ordering statement is
false: pivot-window comparison is not transitive, so two deliveries far
apart can be delivered "out of pivot order" even with no reset and no
wrap-around anomaly.  In the in-order trace `0, 1, …, 200` (u8 sequence
numbers, capacity 4) no `Reset` event occurs, both sequence numbers 0 and
200 are delivered exactly once, `200 < 0` holds in pivot-window order
(forward distance `56 ≤ MAX/2`), yet 0 is delivered first. -/
theorem reorder_c1_counterexample :
    noResetEvent (runOps id 256 (Ring.init Nat 4) c1trace).2 = true ∧
    pivotLt 256 200 0 = true ∧
    (deliveredSeqs id (runOps id 256 (Ring.init Nat 4) c1trace).2).get? 0
      = some 0 ∧
    (deliveredSeqs id (runOps id 256 (Ring.init Nat 4) c1trace).2).get? 200
      = some 200 ∧
    (deliveredSeqs id (runOps id 256 (Ring.init Nat 4) c1trace).2).count 0
      = 1 ∧
    (deliveredSeqs id (runOps id 256 (Ring.init Nat 4) c1trace).2).count 200
      = 1 := by
  decide

/-- C1 (amended).  The operational half of the claim holds: whenever
`next_event` emits `Packet(p)`, the packet's sequence number equals the
ring's `read_seq` at the start of the call, and `read_seq` has advanced by
exactly one (wrapping) afterwards. -/
theorem reorder_c1_amended (seqOf : P → Nat) (M : Nat)
    (st st' : Ring P) (p : P)
    (h : Ring.nextEvent seqOf M st = (REvent.packet p, st')) :
    seqOf p = st.readSeq ∧ st'.readSeq = (st.readSeq + 1) % M := by
  revert h
  rw [Ring.nextEvent]
  split
  · intro h; simp at h
  · rcases htp : st.tryPop seqOf M with ⟨o, st2⟩
    have htp' : tryPopAux seqOf M st st.readPos st.data.length = (o, st2) :=
      htp
    have hpres := tryPopAux_pres seqOf M st st.readPos st.data.length
    rw [htp'] at hpres
    have hrs : st2.readSeq = st.readSeq := hpres.1
    cases o with
    | some q =>
      intro h
      injection h with h1 h2
      have hqp : q = p := by injection h1
      subst hqp
      refine ⟨tryPopAux_some_seq seqOf M st st.readPos st.data.length q st2
        htp', ?_⟩
      rw [← h2, ← hrs]
    | none =>
      intro h
      split at h
      · simp_all
      · split at h <;> simp_all

/-- Witness for `reorder_c1_amended` on a concrete one-packet run. -/
theorem reorder_c1_amended_witness :
    id (0 : Nat) = (Ring.put id 256 (Ring.init Nat 4) 0).2.readSeq ∧
    (Ring.nextEvent id 256 (Ring.put id 256 (Ring.init Nat 4) 0).2).2.readSeq
      = ((Ring.put id 256 (Ring.init Nat 4) 0).2.readSeq + 1) % 256 :=
  reorder_c1_amended id 256 _ _ 0 (by decide)

/-! ## C4 — order of the expiry and reset checks in `put` -/

/-- C4 (counterexample).  The claim says the expiry check is admission step
1 and precedes the reset check.  In the code the reset check comes first:
on a fresh u8 ring of capacity 32, the packet with sequence 200 is expired
with respect to `read_seq = 0`, yet `put` performs a sequence reset, admits
the packet (returns `None`), and does not touch the `rejected` counter. -/
theorem reorder_c4_counterexample :
    isExpired 256 (Ring.init Nat 32).readSeq (id (200 : Nat)) = true ∧
    (Ring.put id 256 (Ring.init Nat 32) 200).1 = none ∧
    (Ring.put id 256 (Ring.init Nat 32) 200).2.mRejected = 0 ∧
    (Ring.put id 256 (Ring.init Nat 32) 200).2.resetFlag = true := by
  decide

/-- C4 (amended).  Expired-packet rejection holds for packets that do not
also trigger a sequence reset (the reset check runs first): such a `put`
returns the packet, bumps the `rejected` counter by one, and leaves every
other component of the ring state unchanged. -/
theorem reorder_c4_amended (seqOf : P → Nat) (M : Nat) (st : Ring P) (p : P)
    (hexp : isExpired M st.readSeq (seqOf p) = true)
    (hnr : isSeqReset M st.data.length st.writeSeq (seqOf p) = false) :
    Ring.put seqOf M st p
      = (some p, { st with mRejected := cInc st.mRejected }) := by
  simp [Ring.put, hnr, hexp]

/-- Witness for `reorder_c4_amended`: sequence 250 on a fresh u8 ring of
capacity 32 is expired but not a reset. -/
theorem reorder_c4_amended_witness :
    Ring.put id 256 (Ring.init Nat 32) 250
      = (some 250,
         { Ring.init Nat 32 with
             mRejected := cInc (Ring.init Nat 32).mRejected }) :=
  reorder_c4_amended id 256 (Ring.init Nat 32) 250 (by decide) (by decide)

/-! ## C5 — the expiry predicate against its reference definition -/

/-- C5 (counterexample).  At `read_seq = 128`, `pkt_seq = 0` (u8) the
forward wrapping distance is `128 > MAX/2 = 127` and the sequence numbers
differ, so the claimed reference definition declares the packet expired —
but `is_expired` returns `false` (the code compares the backward distance
`128` against `pivot = 127` strictly). -/
theorem reorder_c5_counterexample :
    isExpired 256 128 0 = false ∧ (128 : Nat) ≠ 0 ∧
      (0 + (256 - 128)) % 256 > (256 - 1) / 2 := by
  decide

/-- C5 (amended).  `is_expired(read_seq, pkt_seq)` is true iff the sequence
numbers differ and the forward wrapping distance from `read_seq` to
`pkt_seq` exceeds `MAX/2` — when `pkt_seq > read_seq` numerically — or
exceeds `MAX/2 + 2` — when `pkt_seq < read_seq` (the code's strict backward
comparison shifts the boundary by two in that case). -/
theorem reorder_c5_amended (M rs ps : Nat) (hM : 4 ≤ M) (he : M % 2 = 0)
    (h1 : rs < M) (h2 : ps < M) :
    (isExpired M rs ps = true) ↔
      (rs ≠ ps ∧
        (ps + (M - rs)) % M ≥ M / 2 + (if rs < ps then 0 else 2)) := by
  by_cases hgt : rs < ps
  · have hfd : (ps + (M - rs)) % M = ps - rs := by
      rw [show ps + (M - rs) = (ps - rs) + M by omega, Nat.add_mod_right]
      exact Nat.mod_eq_of_lt (by omega)
    simp only [isExpired, Bool.and_eq_true, decide_eq_true_eq, if_pos hgt,
      hfd]
    omega
  · by_cases heq : ps = rs
    · subst heq
      have hfd : (ps + (M - ps)) % M = 0 := by
        rw [show ps + (M - ps) = M by omega, Nat.mod_self]
      simp only [isExpired, Bool.and_eq_true, decide_eq_true_eq, if_neg hgt,
        hfd]
      omega
    · have hfd : (ps + (M - rs)) % M = ps + (M - rs) :=
        Nat.mod_eq_of_lt (by omega)
      simp only [isExpired, Bool.and_eq_true, decide_eq_true_eq, if_neg hgt,
        hfd]
      omega

/-! ## C2 — reorder idempotence -/

/-- A `put` that does not trigger a sequence reset leaves `read_seq` and the
reset flag unchanged. -/
theorem put_noReset_pres (seqOf : P → Nat) (M : Nat) (st : Ring P) (p : P)
    (hnr : isSeqReset M st.data.length st.writeSeq (seqOf p) = false) :
    (Ring.put seqOf M st p).2.readSeq = st.readSeq ∧
    (Ring.put seqOf M st p).2.resetFlag = st.resetFlag := by
  simp only [Ring.put, hnr, Bool.false_eq_true, ite_false]
  by_cases hie : isExpired M st.readSeq (seqOf p) = true <;>
    simp only [hie, Bool.not_true, Bool.not_false, Bool.false_eq_true,
      ite_false, ite_true, Ring.push] <;>
    (try split) <;> simp

/-- Case analysis for `next_event` from a state with a clear reset flag:
the reset flag stays clear, a delivered packet carries `read_seq` and
advances it by one, `Missing` advances it by one, `NeedMore` leaves it
unchanged, and no `Reset` event can be produced. -/
theorem nextEvent_step (seqOf : P → Nat) (M : Nat) (st st' : Ring P)
    (ev : REvent P) (hflag : st.resetFlag = false)
    (hne : Ring.nextEvent seqOf M st = (ev, st')) :
    st'.resetFlag = false ∧
    ((∃ p, ev = REvent.packet p ∧ seqOf p = st.readSeq ∧
        st'.readSeq = (st.readSeq + 1) % M) ∨
     (ev = REvent.missing ∧ st'.readSeq = (st.readSeq + 1) % M) ∨
     (ev = REvent.needMore ∧ st'.readSeq = st.readSeq)) := by
  revert hne
  unfold Ring.nextEvent
  rw [if_neg (by simp [hflag])]
  rcases htp : st.tryPop seqOf M with ⟨o, st2⟩
  have htp' : tryPopAux seqOf M st st.readPos st.data.length = (o, st2) := htp
  have hpres := tryPopAux_pres seqOf M st st.readPos st.data.length
  rw [htp'] at hpres
  have hrs : st2.readSeq = st.readSeq := hpres.1
  have hfl : st2.resetFlag = false := by
    have := hpres.2.2.1
    simp only [hflag] at this
    exact this
  cases o with
  | some q =>
    intro hne
    injection hne with h1 h2
    refine ⟨by rw [← h2]; exact hfl, Or.inl ⟨q, h1.symm, ?_, ?_⟩⟩
    · exact tryPopAux_some_seq seqOf M st st.readPos st.data.length q st2 htp'
    · rw [← h2, ← hrs]
  | none =>
    intro hne
    split at hne
    · rename_i heq
      simp at heq
    · rename_i x st3 heq
      injection heq with heq1 heq2
      subst heq2
      split at hne <;> injection hne with h1 h2
      · exact ⟨by rw [← h2]; exact hfl,
          Or.inr (Or.inl ⟨h1.symm, by rw [← h2, ← hrs]⟩)⟩
      · exact ⟨by rw [← h2]; exact hfl,
          Or.inr (Or.inr ⟨h1.symm, by rw [← h2, hrs]⟩)⟩

/-- Behaviour of one `skip_to_next` call from a state with a clear reset
flag, described through the number `a` of `read_seq` advances it performs
(`advSkip`): the flag stays clear, `read_seq` moves forward by `a`, and a
returned packet carries the sequence number reached after `a - 1`
advances. -/
theorem skipToNext_spec (seqOf : P → Nat) (M : Nat) (st : Ring P)
    (fuel : Nat) (hM : 0 < M) (hr : st.readSeq < M)
    (hflag : st.resetFlag = false) :
    (Ring.skipToNext seqOf M st fuel).2.resetFlag = false ∧
    (Ring.skipToNext seqOf M st fuel).2.readSeq
      = (st.readSeq + advSkip seqOf M st fuel) % M ∧
    (∀ p, (Ring.skipToNext seqOf M st fuel).1 = some p →
      1 ≤ advSkip seqOf M st fuel ∧
      seqOf p = (st.readSeq + (advSkip seqOf M st fuel - 1)) % M) := by
  induction fuel generalizing st with
  | zero =>
    refine ⟨hflag, ?_, ?_⟩
    · simp [Ring.skipToNext, advSkip, Nat.mod_eq_of_lt hr]
    · intro p h
      simp [Ring.skipToNext] at h
  | succ f ih =>
    obtain ⟨o, st2, htp⟩ : ∃ o st2, Ring.tryPop seqOf M st = (o, st2) :=
      ⟨_, _, rfl⟩
    have htp' : tryPopAux seqOf M st st.readPos st.data.length = (o, st2) :=
      htp
    have hpres := tryPopAux_pres seqOf M st st.readPos st.data.length
    rw [htp'] at hpres
    have hrs : st2.readSeq = st.readSeq := hpres.1
    have hfl : st2.resetFlag = false := by
      have h3 := hpres.2.2.1
      simp only [hflag] at h3
      exact h3
    cases o with
    | some q =>
      simp only [Ring.skipToNext, advSkip, htp]
      refine ⟨hfl, by simp [hrs], ?_⟩
      intro p h
      obtain rfl : q = p := by injection h
      refine ⟨le_refl 1, ?_⟩
      rw [tryPopAux_some_seq seqOf M st st.readPos st.data.length q st2 htp']
      simp [Nat.mod_eq_of_lt hr]
    | none =>
      simp only [Ring.skipToNext, advSkip, htp]
      by_cases hlen : st2.len = 0
      · simp only [hlen, ite_true]
        refine ⟨hfl, ?_, ?_⟩
        · simp [hrs, Nat.mod_eq_of_lt hr]
        · intro p h
          simp at h
      · simp only [if_neg hlen]
        have hr2 : ((st2.readSeq + 1) % M) < M := Nat.mod_lt _ hM
        obtain ⟨ih1, ih2, ih3⟩ := ih { st2 with readSeq := (st2.readSeq + 1) % M }
          hr2 hfl
        have hproj : ({ st2 with readSeq := (st2.readSeq + 1) % M }
            : Ring P).readSeq = (st2.readSeq + 1) % M := rfl
        rw [hproj] at ih2
        refine ⟨ih1, ?_, ?_⟩
        · rw [ih2, ← hrs, Nat.mod_add_mod]
          congr 1
          omega
        · intro p h
          obtain ⟨ha, hseq⟩ := ih3 p h
          refine ⟨by omega, ?_⟩
          rw [hseq, hproj, ← hrs, Nat.mod_add_mod]
          congr 1
          omega

/-- The central trace invariant behind reorder idempotence: running a
reset-free trace from a state with a clear reset flag, the delivered
sequence numbers are `read_seq₀ + o` (mod `M`) for a strictly increasing
list of offsets `o`, all smaller than the total number of `read_seq`
advances, and `read_seq` ends up advanced by exactly that total. -/
theorem runOps_offsets (seqOf : P → Nat) (M : Nat) (st : Ring P)
    (ops : List (ROp P)) (hM : 0 < M) (hr : st.readSeq < M)
    (hflag : st.resetFlag = false)
    (hrf : resetFree seqOf M st ops = true) :
    ∃ offs : List Nat,
      deliveredSeqs seqOf (runOps seqOf M st ops).2
        = offs.map (fun o => (st.readSeq + o) % M) ∧
      offs.Chain' (· < ·) ∧
      (∀ o ∈ offs, o < advCount seqOf M st ops) := by
  induction ops generalizing st with
  | nil => exact ⟨[], by simp [runOps, deliveredSeqs], by simp, by simp⟩
  | cons op ops ih =>
    cases op with
    | put p =>
      rw [resetFree] at hrf
      obtain ⟨hnr, hrf'⟩ := Bool.and_eq_true .. ▸ hrf
      rw [Bool.not_eq_true'] at hnr
      obtain ⟨hpr, hpf⟩ := put_noReset_pres seqOf M st p hnr
      obtain ⟨offs, hmap, hchain, hbound⟩ :=
        ih (Ring.put seqOf M st p).2 (by rw [hpr]; exact hr)
          (by rw [hpf]; exact hflag) hrf'
      refine ⟨offs, ?_, hchain, ?_⟩
      · rw [runOps, hmap, hpr]
      · intro o ho
        have := hbound o ho
        rw [advCount]
        exact this
    | next =>
      rw [resetFree] at hrf
      rcases hne : Ring.nextEvent seqOf M st with ⟨ev, st'⟩
      rw [hne] at hrf
      obtain ⟨hfl', hcases⟩ := nextEvent_step seqOf M st st' ev hflag hne
      rcases hcases with ⟨q, rfl, hq, hr'⟩ | ⟨rfl, hr'⟩ | ⟨rfl, hr'⟩
      · obtain ⟨offs, hmap, hchain, hbound⟩ :=
          ih st' (by rw [hr']; exact Nat.mod_lt _ hM) hfl' hrf
        refine ⟨0 :: offs.map (· + 1), ?_, ?_, ?_⟩
        · simp only [deliveredSeqs] at hmap
          simp only [runOps, hne, deliveredSeqs, List.filterMap_cons]
          rw [hmap]
          simp only [List.map_cons, List.map_map, hr', hq]
          refine congrArg₂ _ (Nat.mod_eq_of_lt hr).symm ?_
          refine congrArg₂ _ ?_ rfl
          funext o
          simp only [Function.comp_apply, Nat.mod_add_mod]
          congr 1
          omega
        · rw [List.chain'_cons']
          constructor
          · intro y hy
            rcases List.mem_map.mp (List.mem_of_mem_head? hy) with ⟨z, _, rfl⟩
            omega
          · rw [List.chain'_map]
            exact hchain.imp (by omega)
        · intro o ho
          rw [advCount, hne]
          rcases List.mem_cons.mp ho with rfl | ho
          · simp
          · rcases List.mem_map.mp ho with ⟨z, hz, rfl⟩
            have hb := hbound z hz
            simp
            omega
      · obtain ⟨offs, hmap, hchain, hbound⟩ :=
          ih st' (by rw [hr']; exact Nat.mod_lt _ hM) hfl' hrf
        refine ⟨offs.map (· + 1), ?_, ?_, ?_⟩
        · simp only [deliveredSeqs] at hmap
          simp only [runOps, hne, deliveredSeqs, List.filterMap_cons]
          rw [hmap]
          simp only [List.map_map, hr']
          refine congrArg₂ _ ?_ rfl
          funext o
          simp only [Function.comp_apply, Nat.mod_add_mod]
          congr 1
          omega
        · rw [List.chain'_map]
          exact hchain.imp (by omega)
        · intro o ho
          rw [advCount, hne]
          rcases List.mem_map.mp ho with ⟨z, hz, rfl⟩
          have := hbound z hz
          simp
          omega
      · obtain ⟨offs, hmap, hchain, hbound⟩ :=
          ih st' (by rw [hr']; exact hr) hfl' hrf
        refine ⟨offs, ?_, hchain, ?_⟩
        · simp only [deliveredSeqs] at hmap
          simp only [runOps, hne, deliveredSeqs, List.filterMap_cons]
          rw [hmap, hr']
        · intro o ho
          have := hbound o ho
          rw [advCount, hne]
          simp
          omega
    | skip f =>
      rw [resetFree] at hrf
      rcases hsk : Ring.skipToNext seqOf M st f with ⟨o, st'⟩
      rw [hsk] at hrf
      obtain ⟨h1, h2, h3⟩ := skipToNext_spec seqOf M st f hM hr hflag
      rw [hsk] at h1 h2 h3
      have hfl' : st'.resetFlag = false := h1
      have hrs' : st'.readSeq = (st.readSeq + advSkip seqOf M st f) % M := h2
      have hsome : ∀ p, o = some p →
          1 ≤ advSkip seqOf M st f ∧
          seqOf p = (st.readSeq + (advSkip seqOf M st f - 1)) % M :=
        fun p hp => h3 p hp
      obtain ⟨offs, hmap, hchain, hbound⟩ :=
        ih st' (by rw [hrs']; exact Nat.mod_lt _ hM) hfl' hrf
      set a := advSkip seqOf M st f with ha
      cases o with
      | some q =>
        obtain ⟨ha1, hq⟩ := hsome q rfl
        refine ⟨(a - 1) :: offs.map (· + a), ?_, ?_, ?_⟩
        · simp only [deliveredSeqs] at hmap
          simp only [runOps, hsk, deliveredSeqs, List.filterMap_cons,
            List.filterMap_append]
          rw [hmap]
          simp only [List.map_cons, List.map_map, hrs', hq,
            List.filterMap_cons, List.filterMap_nil, List.nil_append,
            List.singleton_append]
          refine congrArg₂ _ rfl ?_
          refine congrArg₂ _ ?_ rfl
          funext z
          simp only [Function.comp_apply, Nat.mod_add_mod]
          congr 1
          omega
        · rw [List.chain'_cons']
          constructor
          · intro y hy
            rcases List.mem_map.mp (List.mem_of_mem_head? hy) with ⟨z, _, rfl⟩
            omega
          · rw [List.chain'_map]
            exact hchain.imp (by omega)
        · intro x hx
          have hadv : advCount seqOf M st (ROp.skip f :: ops)
              = a + advCount seqOf M st' ops := by
            rw [advCount, hsk]
          rw [hadv]
          rcases List.mem_cons.mp hx with rfl | hx
          · omega
          · rcases List.mem_map.mp hx with ⟨z, hz, rfl⟩
            have hb := hbound z hz
            omega
      | none =>
        refine ⟨offs.map (· + a), ?_, ?_, ?_⟩
        · simp only [deliveredSeqs] at hmap
          simp only [runOps, hsk, deliveredSeqs, List.filterMap_cons,
            List.filterMap_append, List.filterMap_nil, List.nil_append]
          rw [hmap]
          simp only [List.map_map, hrs']
          refine congrArg₂ _ ?_ rfl
          funext z
          simp only [Function.comp_apply, Nat.mod_add_mod]
          congr 1
          omega
        · rw [List.chain'_map]
          exact hchain.imp (by omega)
        · intro x hx
          have hadv : advCount seqOf M st (ROp.skip f :: ops)
              = a + advCount seqOf M st' ops := by
            rw [advCount, hsk]
          rw [hadv]
          rcases List.mem_map.mp hx with ⟨z, hz, rfl⟩
          have hb := hbound z hz
          omega

/-- C2 (counterexample).  Unconditional idempotence fails on wrap-around:
with u8 sequence numbers and capacity 4, admitting and delivering
`0, 1, …, 255, 0` in order never triggers a sequence reset, yet sequence
number 0 is carried by two distinct `Packet` events. -/
theorem reorder_c2_counterexample :
    resetFree id 256 (Ring.init Nat 4) c2trace = true ∧
    (deliveredSeqs id (runOps id 256 (Ring.init Nat 4) c2trace).2).count 0
      = 2 := by
  decide

/-- C2 (amended).  Reorder idempotence holds as long as the trace advances
`read_seq` at most `2^k` times (so the sequence space does not wrap): for
every reset-free trace of `put`, `next_event` and `skip_to_next` operations
from a fresh ring whose total number of `read_seq` advances is at most `M`,
the delivered sequence numbers are pairwise distinct — in particular, a
duplicate admission is never delivered twice. -/
theorem reorder_c2_amended (seqOf : P → Nat) (M cap : Nat)
    (ops : List (ROp P)) (hM : 0 < M)
    (hrf : resetFree seqOf M (Ring.init P cap) ops = true)
    (hadv : advCount seqOf M (Ring.init P cap) ops ≤ M) :
    (deliveredSeqs seqOf
      (runOps seqOf M (Ring.init P cap) ops).2).Pairwise (· ≠ ·) := by
  obtain ⟨offs, hmap, hchain, hbound⟩ :=
    runOps_offsets seqOf M (Ring.init P cap) ops hM hM rfl hrf
  rw [hmap, List.pairwise_map]
  have hp : offs.Pairwise (· < ·) := List.chain'_iff_pairwise.mp hchain
  refine hp.imp_of_mem ?_
  intro a b ha hb hab
  have ha' := hbound a ha
  have hb' := hbound b hb
  show ((Ring.init P cap).readSeq + a) % M ≠ ((Ring.init P cap).readSeq + b) % M
  have h0 : (Ring.init P cap).readSeq = 0 := rfl
  rw [h0, Nat.zero_add, Nat.zero_add, Nat.mod_eq_of_lt (by omega),
    Nat.mod_eq_of_lt (by omega)]
  omega

/-- Witness for `reorder_c2_amended` on a concrete two-packet trace. -/
theorem reorder_c2_amended_witness :
    (deliveredSeqs id (runOps id 256 (Ring.init Nat 4)
      [ROp.put 0, ROp.next, ROp.put 1, ROp.next]).2).Pairwise (· ≠ ·) :=
  reorder_c2_amended id 256 4 [ROp.put 0, ROp.next, ROp.put 1, ROp.next]
    (by decide) (by decide) (by decide)

/-! ## C3 — reset fidelity -/

/-- After a reset to `s`, the packet that caused it is never expired:
`is_expired(s - 1, s) = false` (wrapping predecessor). -/
theorem isExpired_wrapPred (M s : Nat) (hM : 4 ≤ M) (hs : s < M) :
    isExpired M ((s + (M - 1)) % M) s = false := by
  rcases Nat.eq_zero_or_pos s with rfl | hpos
  · have h1 : (0 + (M - 1)) % M = M - 1 := by
      rw [Nat.zero_add]
      exact Nat.mod_eq_of_lt (by omega)
    unfold isExpired
    rw [h1, if_neg (by omega : ¬0 > M - 1)]
    simp only [Bool.and_eq_false_iff, decide_eq_false_iff_not]
    right
    omega
  · have h1 : (s + (M - 1)) % M = s - 1 := by
      rw [show s + (M - 1) = (s - 1) + M by omega, Nat.add_mod_right]
      exact Nat.mod_eq_of_lt (by omega)
    unfold isExpired
    rw [h1, if_pos (by omega : s > s - 1)]
    simp only [Bool.and_eq_false_iff, decide_eq_false_iff_not]
    right
    omega

/-- C3 (confirmed), reset fidelity.  If `put(p)` triggers `is_seq_reset`
relative to the last-written sequence number, then: the packet is admitted
(`put` returns `None`), the post-`put` state has `read_seq = p.seq - 1`
(wrapping) and the reset flag raised, the immediately following
`next_event` returns `Reset(p.seq)`, and the `next_event` after that
delivers the packet with sequence `p.seq`. -/
theorem reorder_c3_reset_fidelity (seqOf : P → Nat) (M : Nat) (st : Ring P)
    (p : P) (hM : 4 ≤ M) (hcap : 2 ≤ st.data.length) (hs : seqOf p < M)
    (hreset : isSeqReset M st.data.length st.writeSeq (seqOf p) = true) :
    (Ring.put seqOf M st p).1 = none ∧
    (Ring.put seqOf M st p).2.readSeq = (seqOf p + (M - 1)) % M ∧
    (Ring.put seqOf M st p).2.resetFlag = true ∧
    (Ring.nextEvent seqOf M (Ring.put seqOf M st p).2).1
      = REvent.reset (seqOf p) ∧
    (Ring.nextEvent seqOf M
        (Ring.nextEvent seqOf M (Ring.put seqOf M st p).2).2).1
      = REvent.packet p := by
  have hexp := isExpired_wrapPred M (seqOf p) hM hs
  have hLr : (List.replicate st.data.length (none : Option P)).length
      = st.data.length := List.length_replicate ..
  have hcw : ((0 : Nat) + st.data.length - 1) % st.data.length
      = st.data.length - 1 := by
    rw [Nat.zero_add]
    exact Nat.mod_eq_of_lt (by omega)
  have hadv : advancePos 0 st.data.length = 1 := by
    unfold advancePos
    rw [if_neg (by omega)]
  have hput : Ring.put seqOf M st p
      = (none,
         { st with
             data := (List.replicate st.data.length
               (none : Option P)).set 0 (some p)
             readPos := 0
             writePos := 1
             readSeq := (seqOf p + (M - 1)) % M
             writeSeq := seqOf p
             resetFlag := true }) := by
    simp only [Ring.put, hreset, ite_true, Ring.resetBuf, hexp,
      Bool.not_false]
    unfold Ring.push Ring.canWrite
    simp only [hLr, hcw, hadv]
    rw [if_pos (by simp only [decide_eq_true_eq]; omega)]
  have hmod : ((seqOf p + (M - 1)) % M + 1) % M = seqOf p := by
    rw [Nat.mod_add_mod, show seqOf p + (M - 1) + 1 = seqOf p + M by omega,
      Nat.add_mod_right]
    exact Nat.mod_eq_of_lt hs
  rw [hput]
  refine ⟨rfl, rfl, rfl, ?_, ?_⟩
  · unfold Ring.nextEvent
    rw [if_pos rfl]
    simp only [hmod]
  · unfold Ring.nextEvent
    rw [if_pos rfl]
    simp only [hmod]
    rw [if_neg (by simp)]
    have hlen : ((List.replicate st.data.length
        (none : Option P)).set 0 (some p)).length = st.data.length := by
      rw [List.length_set, hLr]
    unfold Ring.tryPop
    simp only [hlen]
    obtain ⟨l, hl⟩ : ∃ l, st.data.length = l + 1 := ⟨st.data.length - 1, by omega⟩
    rw [hl, tryPopAux]
    rw [if_neg (by omega : ¬(1 : Nat) = 0)]
    have hget : ((List.replicate (l + 1)
        (none : Option P)).set 0 (some p)).getD 0 none = some p := by
      rw [List.replicate_succ]
      rfl
    rw [hget]
    simp

/-- Witness for `reorder_c3_reset_fidelity`: u8 ring of capacity 32,
fresh state, packet with sequence 33 (as in the repository's
`detect_reset_start` test). -/
theorem reorder_c3_reset_fidelity_witness :
    (Ring.put id 256 (Ring.init Nat 32) 33).1 = none ∧
    (Ring.put id 256 (Ring.init Nat 32) 33).2.readSeq = (33 + (256 - 1)) % 256 ∧
    (Ring.put id 256 (Ring.init Nat 32) 33).2.resetFlag = true ∧
    (Ring.nextEvent id 256 (Ring.put id 256 (Ring.init Nat 32) 33).2).1
      = REvent.reset (id 33) ∧
    (Ring.nextEvent id 256
        (Ring.nextEvent id 256 (Ring.put id 256 (Ring.init Nat 32) 33).2).2).1
      = REvent.packet 33 :=
  reorder_c3_reset_fidelity id 256 (Ring.init Nat 32) 33 (by decide)
    (by decide) (by decide) (by decide)

/-- Witness for `reorder_c5_amended` at `M = 2^8`, `read_seq = 10`,
`pkt_seq = 9`. -/
theorem reorder_c5_amended_witness :
    (isExpired 256 10 9 = true) ↔
      ((10 : Nat) ≠ 9 ∧
        (9 + (256 - 10)) % 256 ≥ 256 / 2 + (if (10 : Nat) < 9 then 0 else 2)) :=
  reorder_c5_amended 256 10 9 (by decide) (by decide) (by decide) (by decide)

/-! ## C9 — strict ring occupancy -/

/-- Closed form for the ring-order index. -/
theorem ringIdx_eq (L r j : Nat) (hr : r < L) (hj : j < L) :
    ringIdx L r j = if r ≤ j then j - r else j + L - r := by
  unfold ringIdx
  split
  · rename_i h
    rw [show j + L - r = (j - r) + L by omega, Nat.add_mod_right]
    exact Nat.mod_eq_of_lt (by omega)
  · exact Nat.mod_eq_of_lt (by omega)

/-- `advance` is addition modulo the ring length. -/
theorem advancePos_eq (r L : Nat) (hr : r < L) :
    advancePos r L = (r + 1) % L := by
  unfold advancePos
  split
  · rename_i h
    rw [show r + 1 = L by omega, Nat.mod_self]
  · exact (Nat.mod_eq_of_lt (by omega)).symm

/-- Closed form for the cell just behind the read head. -/
theorem predIdx_eq (r L : Nat) (hL : 0 < L) (hr : r < L) :
    (r + L - 1) % L = if r = 0 then L - 1 else r - 1 := by
  split
  · rename_i h
    rw [h, Nat.zero_add]
    exact Nat.mod_eq_of_lt (by omega)
  · rw [show r + L - 1 = (r - 1) + L by omega, Nat.add_mod_right]
    exact Nat.mod_eq_of_lt (by omega)

/-- Clearing a cell preserves an empty cell at any position. -/
theorem getD_set_none (l : List (Option P)) (i j : Nat)
    (h : l.getD j none = none ∨ j = i) :
    (l.set i none).getD j none = none := by
  rw [List.getD_eq_getElem?_getD, List.getElem?_set]
  rcases h with h | rfl
  · split
    · split <;> rfl
    · rw [← List.getD_eq_getElem?_getD]
      exact h
  · rw [if_pos rfl]
    split <;> rfl

/-- Clearing any cell preserves the ring invariant. -/
theorem inv_set_none (st : Ring P) (i : Nat) (h : RingInv st) :
    RingInv { st with data := st.data.set i none } := by
  obtain ⟨hL, hr, hw, hout⟩ := h
  refine ⟨?_, ?_, ?_, ?_⟩
  · simpa [List.length_set] using hL
  · simpa [List.length_set] using hr
  · simpa [List.length_set] using hw
  · intro j hj hd
    simp only [List.length_set] at hj
    simp only [Ring.dist, List.length_set] at hd
    exact getD_set_none st.data i j (Or.inl (hout j hj hd))

/-- Moving the read head forward by one cell can only move cells out of the
window; a cell other than the old read head that is outside the new window
was already outside the old one. -/
theorem ringIdx_shrink (L r w j : Nat) (hL : 0 < L) (hr : r < L) (hw : w < L)
    (hj : j < L) (hwr : w ≠ r) (hjr : j ≠ r)
    (h : ringIdx L ((r + 1) % L) w ≤ ringIdx L ((r + 1) % L) j) :
    ringIdx L r w ≤ ringIdx L r j := by
  have hr1 : (r + 1) % L = if r + 1 = L then 0 else r + 1 := by
    split
    · rename_i h2
      rw [h2, Nat.mod_self]
    · exact Nat.mod_eq_of_lt (by omega)
  have hr' : (r + 1) % L < L := Nat.mod_lt _ hL
  rw [ringIdx_eq L r w hr hw, ringIdx_eq L r j hr hj]
  rw [ringIdx_eq L ((r + 1) % L) w hr' hw,
    ringIdx_eq L ((r + 1) % L) j hr' hj, hr1] at h
  split_ifs at h ⊢ <;> omega

/-- Advancing the read head preserves the invariant when the cell it leaves
behind is (or is simultaneously made) empty. -/
theorem inv_advance_read (st : Ring P) (h : RingInv st)
    (hvw : st.writePos ≠ st.readPos)
    (hfront : st.data.getD st.readPos none = none) :
    RingInv { st with readPos := advancePos st.readPos st.data.length } := by
  obtain ⟨hL, hr, hw, hout⟩ := h
  rw [advancePos_eq _ _ hr]
  refine ⟨hL, Nat.mod_lt _ hL, hw, ?_⟩
  intro j hj hd
  by_cases hjr : j = st.readPos
  · rw [hjr]
    exact hfront
  · refine hout j hj ?_
    exact ringIdx_shrink st.data.length st.readPos st.writePos j hL hr hw hj
      hvw hjr hd

/-- `push` preserves the invariant. -/
theorem inv_push (st : Ring P) (p : P) (h : RingInv st) :
    RingInv (Ring.push st p).2 := by
  obtain ⟨hL, hr, hw, hout⟩ := h
  unfold Ring.push
  split
  · rename_i hcw
    rw [Ring.canWrite, decide_eq_true_eq] at hcw
    rw [predIdx_eq _ _ hL hr] at hcw
    refine ⟨?_, ?_, ?_, ?_⟩
    · simpa [List.length_set] using hL
    · simpa [List.length_set] using hr
    · simp only [List.length_set]
      rw [advancePos_eq _ _ hw]
      exact Nat.mod_lt _ hL
    · intro j hj hd
      simp only [List.length_set] at hj
      simp only [Ring.dist, List.length_set, advancePos_eq _ _ hw] at hd
      have hw1 : (st.writePos + 1) % st.data.length
          = if st.writePos + 1 = st.data.length then 0 else st.writePos + 1 := by
        split
        · rename_i h2
          rw [h2, Nat.mod_self]
        · exact Nat.mod_eq_of_lt (by omega)
      have hw' : (st.writePos + 1) % st.data.length < st.data.length :=
        Nat.mod_lt _ hL
      rw [ringIdx_eq _ _ _ hr hw', hw1, ringIdx_eq _ _ _ hr hj] at hd
      have hjw : j ≠ st.writePos := by
        intro h5
        rw [h5] at hd
        split_ifs at hcw hd <;> omega
      have hjout : Ring.dist st ≤ ringIdx st.data.length st.readPos j := by
        rw [Ring.dist, ringIdx_eq _ _ _ hr hw, ringIdx_eq _ _ _ hr hj]
        split_ifs at hcw hd ⊢ <;> omega
      rw [List.getD_eq_getElem?_getD, List.getElem?_set, if_neg (Ne.symm hjw),
        ← List.getD_eq_getElem?_getD]
      exact hout j hj hjout
  · exact ⟨hL, hr, hw, hout⟩

/-- `try_pop` preserves the invariant. -/
theorem tryPopAux_inv (seqOf : P → Nat) (M : Nat) (st : Ring P)
    (c f : Nat) (h : RingInv st) :
    RingInv (tryPopAux seqOf M st c f).2 := by
  induction f generalizing st c with
  | zero => simpa [tryPopAux] using h
  | succ f ih =>
    rw [tryPopAux]
    split
    · exact h
    · rename_i hvalid
      cases hd : st.data.getD c none with
      | some p =>
        simp only [hd]
        by_cases h1 : seqOf p = st.readSeq
        · rw [if_pos h1]
          by_cases h2 : c ≠ st.readPos
          · rw [if_pos h2]
            exact inv_set_none { st with mReordered := cInc st.mReordered } c h
          · rw [if_neg h2]
            exact inv_set_none st c h
        · rw [if_neg h1]
          by_cases h3 : isExpired M st.readSeq (seqOf p) = true
          · rw [if_pos h3]
            by_cases h4 : c = st.readPos
            · rw [if_pos h4]
              refine ih _ _ ?_
              have hB := inv_advance_read
                { st with data := st.data.set c none }
                (inv_set_none st c h)
                (fun hwr => hvalid (hwr.trans h4.symm))
                (getD_set_none st.data c st.readPos (Or.inr h4.symm))
              rw [List.length_set] at hB
              exact hB
            · rw [if_neg h4]
              exact ih _ _ (inv_set_none st c h)
          · rw [if_neg h3]
            exact ih _ _ h
      | none =>
        by_cases h4 : c = st.readPos
        · rw [if_pos h4]
          refine ih _ _ ?_
          exact inv_advance_read st h (fun hwr => hvalid (hwr.trans h4.symm))
            (h4 ▸ hd)
        · rw [if_neg h4]
          exact ih _ _ h

/-- The invariant only depends on the slot array and the two heads. -/
theorem RingInv_congr (st st' : Ring P) (hdata : st'.data = st.data)
    (hr : st'.readPos = st.readPos) (hw : st'.writePos = st.writePos)
    (h : RingInv st) : RingInv st' := by
  unfold RingInv Ring.dist at *
  rw [hdata, hr, hw]
  exact h

/-- Every cell of a freshly cleared buffer is empty. -/
theorem getD_replicate_none (n j : Nat) :
    (List.replicate n (none : Option P)).getD j none = none := by
  rw [List.getD_eq_getElem?_getD, List.getElem?_replicate]
  split <;> rfl

/-- `reset` yields a well-formed state. -/
theorem inv_resetBuf (M : Nat) (st : Ring P) (s : Nat)
    (h : 0 < st.data.length) :
    RingInv (Ring.resetBuf M st s) := by
  refine ⟨?_, ?_, ?_, ?_⟩
  · simpa [Ring.resetBuf] using h
  · simpa [Ring.resetBuf] using h
  · simpa [Ring.resetBuf] using h
  · intro j hj hd
    exact getD_replicate_none _ j

/-- `push` does not change the slot count. -/
theorem len_push (st : Ring P) (p : P) :
    (Ring.push st p).2.data.length = st.data.length := by
  unfold Ring.push
  split <;> simp [List.length_set]

/-- `put` preserves the invariant and the slot count. -/
theorem inv_len_put (seqOf : P → Nat) (M : Nat) (st : Ring P) (p : P)
    (h : RingInv st) :
    RingInv (Ring.put seqOf M st p).2 ∧
    (Ring.put seqOf M st p).2.data.length = st.data.length := by
  have hL := h.1
  rw [Ring.put]
  by_cases hres : isSeqReset M st.data.length st.writeSeq (seqOf p) = true
  · rw [if_pos hres]
    have hinv := inv_resetBuf M st (seqOf p) hL
    cases hexp : isExpired M (Ring.resetBuf M st (seqOf p)).readSeq (seqOf p)
    · simp only [Bool.not_false, ite_true]
      refine ⟨inv_push _ p hinv, ?_⟩
      rw [len_push]
      simp [Ring.resetBuf]
    · simp only [Bool.not_true, Bool.false_eq_true, ite_false]
      refine ⟨hinv, by simp [Ring.resetBuf]⟩
  · rw [if_neg hres]
    cases hexp : isExpired M st.readSeq (seqOf p)
    · simp only [Bool.not_false, ite_true]
      exact ⟨inv_push _ p h, len_push _ p⟩
    · simp only [Bool.not_true, Bool.false_eq_true, ite_false]
      exact ⟨h, trivial⟩

/-- `next_event` preserves the invariant and the slot count. -/
theorem nextEvent_inv_len (seqOf : P → Nat) (M : Nat) (st : Ring P)
    (ev : REvent P) (st' : Ring P) (h : RingInv st)
    (hne : Ring.nextEvent seqOf M st = (ev, st')) :
    RingInv st' ∧ st'.data.length = st.data.length := by
  revert hne
  unfold Ring.nextEvent
  by_cases hf : st.resetFlag = true
  · rw [if_pos hf]
    intro hne
    injection hne with h1 h2
    subst h2
    exact ⟨RingInv_congr st _ rfl rfl rfl h, rfl⟩
  · rw [if_neg hf]
    rcases htp : st.tryPop seqOf M with ⟨o, st2⟩
    have htp' : tryPopAux seqOf M st st.readPos st.data.length = (o, st2) :=
      htp
    have hinv2 : RingInv st2 := by
      have h2 := tryPopAux_inv seqOf M st st.readPos st.data.length h
      rw [htp'] at h2
      exact h2
    have hlen2 : st2.data.length = st.data.length := by
      have h2 := (tryPopAux_pres seqOf M st st.readPos st.data.length).2.2.2.2
      rw [htp'] at h2
      exact h2
    cases o with
    | some q =>
      intro hne
      injection hne with h1 h2
      subst h2
      exact ⟨RingInv_congr st2 _ rfl rfl rfl hinv2, hlen2⟩
    | none =>
      intro hne
      split at hne
      · rename_i heq
        simp at heq
      · rename_i x st3 heq
        injection heq with heq1 heq2
        subst heq2
        split at hne <;> injection hne with h1 h2 <;> subst h2
        · exact ⟨RingInv_congr st2 _ rfl rfl rfl hinv2, hlen2⟩
        · exact ⟨hinv2, hlen2⟩

/-- Equation-style corollary of `nextEvent_inv_len`. -/
theorem inv_len_nextEvent (seqOf : P → Nat) (M : Nat) (st : Ring P)
    (h : RingInv st) :
    RingInv (Ring.nextEvent seqOf M st).2 ∧
    (Ring.nextEvent seqOf M st).2.data.length = st.data.length :=
  nextEvent_inv_len seqOf M st (Ring.nextEvent seqOf M st).1
    (Ring.nextEvent seqOf M st).2 h rfl

/-- `skip_to_next` preserves the invariant and the slot count. -/
theorem skip_inv_len (seqOf : P → Nat) (M : Nat) (st : Ring P)
    (fuel : Nat) (h : RingInv st) (o : Option P) (st' : Ring P)
    (hne : Ring.skipToNext seqOf M st fuel = (o, st')) :
    RingInv st' ∧ st'.data.length = st.data.length := by
  induction fuel generalizing st o st' with
  | zero =>
    rw [Ring.skipToNext] at hne
    injection hne with h1 h2
    subst h2
    exact ⟨h, rfl⟩
  | succ f ih =>
    revert hne
    rw [Ring.skipToNext]
    rcases htp : st.tryPop seqOf M with ⟨o2, st2⟩
    have htp' : tryPopAux seqOf M st st.readPos st.data.length = (o2, st2) :=
      htp
    have hinv2 : RingInv st2 := by
      have h2 := tryPopAux_inv seqOf M st st.readPos st.data.length h
      rw [htp'] at h2
      exact h2
    have hlen2 : st2.data.length = st.data.length := by
      have h2 := (tryPopAux_pres seqOf M st st.readPos st.data.length).2.2.2.2
      rw [htp'] at h2
      exact h2
    cases o2 with
    | some q =>
      intro hne
      injection hne with h1 h2
      subst h2
      exact ⟨RingInv_congr st2 _ rfl rfl rfl hinv2, hlen2⟩
    | none =>
      intro hne
      split at hne
      · rename_i x st3 heq
        try injection heq with heq1 heq2
        first
        | subst heq2
        | subst heq
        split at hne
        · injection hne with h1 h2
          subst h2
          exact ⟨hinv2, hlen2⟩
        · obtain ⟨ih1, ih2⟩ := ih { st2 with readSeq := (st2.readSeq + 1) % M }
            (RingInv_congr st2 _ rfl rfl rfl hinv2) o st' hne
          refine ⟨ih1, ?_⟩
          rw [ih2]
          exact hlen2
      · rename_i heq
        simp at heq

/-- Equation-style corollary of `skip_inv_len`. -/
theorem inv_len_skip (seqOf : P → Nat) (M : Nat) (st : Ring P) (fuel : Nat)
    (h : RingInv st) :
    RingInv (Ring.skipToNext seqOf M st fuel).2 ∧
    (Ring.skipToNext seqOf M st fuel).2.data.length = st.data.length :=
  skip_inv_len seqOf M st fuel h (Ring.skipToNext seqOf M st fuel).1
    (Ring.skipToNext seqOf M st fuel).2 rfl

/-- Any trace of operations preserves the invariant and the slot count. -/
theorem runOps_inv (seqOf : P → Nat) (M : Nat) (st : Ring P)
    (ops : List (ROp P)) (h : RingInv st) :
    RingInv (runOps seqOf M st ops).1 ∧
    (runOps seqOf M st ops).1.data.length = st.data.length := by
  induction ops generalizing st with
  | nil => exact ⟨h, rfl⟩
  | cons op ops ih =>
    cases op with
    | put p =>
      obtain ⟨h1, h2⟩ := inv_len_put seqOf M st p h
      obtain ⟨h3, h4⟩ := ih _ h1
      exact ⟨h3, h4.trans h2⟩
    | next =>
      obtain ⟨h1, h2⟩ := inv_len_nextEvent seqOf M st h
      obtain ⟨h3, h4⟩ := ih _ h1
      exact ⟨h3, h4.trans h2⟩
    | skip f =>
      obtain ⟨h1, h2⟩ := inv_len_skip seqOf M st f h
      obtain ⟨h3, h4⟩ := ih _ h1
      exact ⟨h3, h4.trans h2⟩

/-- The fresh ring is well-formed. -/
theorem inv_init (cap : Nat) (hcap : 0 < cap) :
    RingInv (Ring.init P cap) := by
  refine ⟨?_, ?_, ?_, ?_⟩
  · simpa [Ring.init] using hcap
  · simpa [Ring.init] using hcap
  · simpa [Ring.init] using hcap
  · intro j hj hd
    exact getD_replicate_none _ j

/-- A well-formed ring always keeps at least one slot empty. -/
theorem countSome_le (st : Ring P) (h : RingInv st) :
    countSome st.data ≤ st.data.length - 1 := by
  obtain ⟨hL, hr, hw, hout⟩ := h
  have hj0lt : (st.readPos + st.data.length - 1) % st.data.length
      < st.data.length := Nat.mod_lt _ hL
  have hidx : ringIdx st.data.length st.readPos
      ((st.readPos + st.data.length - 1) % st.data.length)
      = st.data.length - 1 := by
    rw [ringIdx_eq _ _ _ hr hj0lt, predIdx_eq _ _ hL hr]
    split_ifs <;> omega
  have hdlt : Ring.dist st < st.data.length := Nat.mod_lt _ hL
  have hnone := hout _ hj0lt (by omega)
  have hmem : (none : Option P) ∈ st.data := by
    rw [List.getD_eq_getElem _ _ hj0lt] at hnone
    exact hnone ▸ List.getElem_mem hj0lt
  have hne : countSome st.data ≠ st.data.length := by
    intro hEq
    have hall := List.countP_eq_length.mp hEq none hmem
    simp at hall
  have hle : countSome st.data ≤ st.data.length :=
    List.countP_le_length _
  omega

/-- `push` bounces the packet exactly when the ring-order distance from the
read head to the write head is `capacity - 1`. -/
theorem push_some_iff (st : Ring P) (p : P) (h : RingInv st) :
    (Ring.push st p).1 = some p ↔ Ring.dist st = st.data.length - 1 := by
  obtain ⟨hL, hr, hw, -⟩ := h
  rw [Ring.push, Ring.dist, ringIdx_eq _ _ _ hr hw]
  by_cases hcw : st.writePos
      = (st.readPos + st.data.length - 1) % st.data.length
  · rw [if_neg (by simp [Ring.canWrite, hcw])]
    rw [predIdx_eq _ _ hL hr] at hcw
    refine iff_of_true rfl ?_
    split_ifs at hcw ⊢ <;> omega
  · rw [if_pos (by simp [Ring.canWrite, hcw])]
    rw [predIdx_eq _ _ hL hr] at hcw
    refine iff_of_false (by simp) ?_
    split_ifs at hcw ⊢ <;> omega

/-- C9 (confirmed), strict ring occupancy.  (1) On every state reachable by
a trace of operations from a fresh ring of capacity `cap`, at most
`cap - 1` slots are occupied — one slot stays permanently unoccupied.
(2) `push` hands the packet back (backpressure) exactly when the ring-order
distance from the read head to the write head is `cap - 1`.  (3) The same
holds for a `put` whose packet is neither expired nor a sequence reset. -/
theorem reorder_c9_occupancy (seqOf : P → Nat) (M cap : Nat)
    (hcap : 0 < cap) :
    (∀ ops : List (ROp P),
      countSome (runOps seqOf M (Ring.init P cap) ops).1.data ≤ cap - 1) ∧
    (∀ (st : Ring P) (p : P), RingInv st →
      ((Ring.push st p).1 = some p ↔
        Ring.dist st = st.data.length - 1)) ∧
    (∀ (st : Ring P) (p : P), RingInv st →
      isExpired M st.readSeq (seqOf p) = false →
      isSeqReset M st.data.length st.writeSeq (seqOf p) = false →
      ((Ring.put seqOf M st p).1 = some p ↔
        Ring.dist st = st.data.length - 1)) := by
  refine ⟨?_, ?_, ?_⟩
  · intro ops
    obtain ⟨h1, h2⟩ := runOps_inv seqOf M (Ring.init P cap) ops
      (inv_init cap hcap)
    have h3 := countSome_le _ h1
    rw [h2] at h3
    simpa [Ring.init] using h3
  · intro st p h
    exact push_some_iff st p h
  · intro st p h hexp hres
    have hres' : ¬(isSeqReset M st.data.length st.writeSeq (seqOf p) = true) := by
      rw [hres]
      exact Bool.false_ne_true
    have hexp' : (!isExpired M st.readSeq (seqOf p)) = true := by
      rw [hexp]
      rfl
    rw [Ring.put, if_neg hres', if_pos hexp']
    exact push_some_iff { st with writeSeq := seqOf p } p
      ⟨h.1, h.2.1, h.2.2.1, h.2.2.2⟩

/-- Witness for `reorder_c9_occupancy` at capacity 3 (mirroring the
`push_full_buffer` test). -/
theorem reorder_c9_occupancy_witness :
    countSome (runOps id 256 (Ring.init Nat 3)
      [ROp.put 0, ROp.put 1, ROp.put 2]).1.data ≤ 3 - 1 ∧
    ((Ring.push (runOps id 256 (Ring.init Nat 3)
        [ROp.put 0, ROp.put 1]).1 2).1 = some 2 ↔
      Ring.dist (runOps id 256 (Ring.init Nat 3)
        [ROp.put 0, ROp.put 1]).1
        = (runOps id 256 (Ring.init Nat 3)
            [ROp.put 0, ROp.put 1]).1.data.length - 1) :=
  ⟨(reorder_c9_occupancy id 256 3 (by decide)).1
      [ROp.put 0, ROp.put 1, ROp.put 2],
   (reorder_c9_occupancy id 256 3 (by decide)).2.1
      (runOps id 256 (Ring.init Nat 3) [ROp.put 0, ROp.put 1]).1 2
      (runOps_inv id 256 (Ring.init Nat 3) [ROp.put 0, ROp.put 1]
        (inv_init 3 (by decide))).1⟩

/-! ## Lemmas about the MPMC channel

### Arithmetic toolkit: `next_power_of_two`, bitwise operations, stamps -/

/-- `nextPowerOfTwo.go` returns at least `n`. -/
theorem nextPowerOfTwo_go_ge (n : Nat) :
    ∀ k power h, n - power ≤ k → n ≤ Nat.nextPowerOfTwo.go n power h := by
  intro k
  induction k with
  | zero =>
    intro power h hk
    unfold Nat.nextPowerOfTwo.go
    split
    · omega
    · omega
  | succ k ih =>
    intro power h hk
    unfold Nat.nextPowerOfTwo.go
    split
    · exact ih _ _ (by omega)
    · omega

/-- `n ≤ n.nextPowerOfTwo`. -/
theorem nextPowerOfTwo_ge (n : Nat) : n ≤ n.nextPowerOfTwo :=
  nextPowerOfTwo_go_ge n n 1 (by omega) (by omega)

/-- `nextPowerOfTwo.go` stays under any power bound it starts under. -/
theorem nextPowerOfTwo_go_lt (n : Nat) :
    ∀ k power h, n - power ≤ k → power < 2 * n →
      Nat.nextPowerOfTwo.go n power h < 2 * n := by
  intro k
  induction k with
  | zero =>
    intro power h hk hp
    unfold Nat.nextPowerOfTwo.go
    split
    · omega
    · omega
  | succ k ih =>
    intro power h hk hp
    unfold Nat.nextPowerOfTwo.go
    split
    · exact ih _ _ (by omega) (by omega)
    · omega

/-- `n.nextPowerOfTwo < 2 * n` for positive `n`. -/
theorem nextPowerOfTwo_lt (n : Nat) (hn : 0 < n) : n.nextPowerOfTwo < 2 * n :=
  nextPowerOfTwo_go_lt n n 1 (by omega) (by omega) (by omega)

/-- Masking with `2^k - 1` is reduction mod `2^k`. -/
theorem and_pow_sub_one (x k : Nat) : x &&& (2 ^ k - 1) = x % 2 ^ k := by
  apply Nat.eq_of_testBit_eq
  intro i
  rw [Nat.testBit_land, Nat.testBit_two_pow_sub_one, Nat.testBit_mod_two_pow]
  exact Bool.and_comm _ _

/-- Bits at or above the width of a value are clear. -/
theorem testBit_high (w x i : Nat) (hx : x < 2 ^ w) (hw : w ≤ i) :
    x.testBit i = false :=
  Nat.testBit_lt_two_pow
    (lt_of_lt_of_le hx (Nat.pow_le_pow_right (by omega) hw))

/-- A number of the form `lap * one_lap + index` with `index < 2^m` has a
clear mark bit (bit `m`), `one_lap` being `2^(m+1)`. -/
theorem stampLike_testBit (b r m : Nat) (hr : r < 2 ^ m) :
    (b * 2 ^ (m + 1) + r).testBit m = false := by
  have h2m : 0 < 2 ^ m := Nat.pos_pow_of_pos m (by omega)
  have h1 : b * 2 ^ (m + 1) + r = 2 ^ m * (2 * b) + r := by ring
  rw [Nat.testBit_to_div_mod, h1, Nat.mul_add_div h2m, Nat.div_eq_of_lt hr]
  simp [Nat.mul_mod_right]

/-- Masking with a single clear bit gives zero. -/
theorem and_single_pow (x m : Nat) (h : x.testBit m = false) :
    x &&& 2 ^ m = 0 := by
  simp [Nat.and_two_pow, h]

/-- Masking a `u64` value with the complement of a clear single bit is the
identity. -/
theorem and_lnot_single (x m : Nat) (hx : x < U64) (hm : m < 64)
    (h : x.testBit m = false) : x &&& lnot (2 ^ m) = x := by
  have hU : U64 = 2 ^ 64 := by norm_num [U64]
  apply Nat.eq_of_testBit_eq
  intro i
  rw [Nat.testBit_land, lnot, hU, Nat.testBit_xor, Nat.testBit_two_pow_sub_one,
    Nat.testBit_two_pow]
  by_cases hi : i < 64
  · by_cases him : m = i
    · subst him
      simp [h]
    · simp [hi, him]
  · have hz : x.testBit i = false := testBit_high 64 x i (hU ▸ hx) (by omega)
    have him : m ≠ i := by omega
    simp [hi, him, hz]

/-- Masking a `u64` value with the complement of `2^k - 1` clears the low
`k` bits. -/
theorem and_lnot_pow_sub_one (x k : Nat) (hx : x < U64) (hk : k ≤ 64) :
    x &&& lnot (2 ^ k - 1) = x - x % 2 ^ k := by
  have hU : U64 = 2 ^ 64 := by norm_num [U64]
  have hdm := Nat.div_add_mod x (2 ^ k)
  have hgoal : x / 2 ^ k * 2 ^ k = x - x % 2 ^ k := by
    rw [Nat.mul_comm] at hdm
    omega
  rw [← hgoal]
  apply Nat.eq_of_testBit_eq
  intro i
  rw [Nat.testBit_land, lnot, hU, Nat.testBit_xor, Nat.testBit_two_pow_sub_one,
    Nat.testBit_two_pow_sub_one, ← Nat.shiftLeft_eq, Nat.testBit_shiftLeft]
  by_cases hik : i < k
  · have hr : ¬ (i ≥ k) := by omega
    have h64 : i < 64 := by omega
    simp [hik, h64, hr]
  · by_cases hi64 : i < 64
    · have hdiv : (x / 2 ^ k).testBit (i - k) = x.testBit i := by
        rw [Nat.testBit_to_div_mod, Nat.testBit_to_div_mod,
          Nat.div_div_eq_div_mul, ← Nat.pow_add]
        have : k + (i - k) = i := by omega
        rw [this]
      have hr : i ≥ k := by omega
      simp [hik, hi64, hr, hdiv]
    · have h1 : x.testBit i = false := testBit_high 64 x i (hU ▸ hx) (by omega)
      have h2 : (x / 2 ^ k).testBit (i - k) = false := by
        apply testBit_high (64 - k)
        · apply Nat.div_lt_of_lt_mul
          calc x < 2 ^ 64 := hU ▸ hx
          _ = 2 ^ k * 2 ^ (64 - k) := by
            rw [← Nat.pow_add]
            congr 1
            omega
        · omega
      simp [h1, h2]

/-- `stampOf` at zero operations. -/
theorem stampOf_zero (cap L : Nat) : stampOf cap L 0 = 0 := by
  simp [stampOf]

/-- `stampOf` reduced modulo a divisor of `one_lap` leaves the index. -/
theorem stampOf_mod (cap L d c : Nat) (hd : d ∣ L) (h : c % cap < d) :
    stampOf cap L c % d = c % cap := by
  obtain ⟨e, rfl⟩ := hd
  rw [stampOf, show c / cap * (d * e) = d * (c / cap * e) by ring,
    Nat.mul_add_mod, Nat.mod_eq_of_lt h]

/-- One lap forward: `stampOf` advances by exactly `one_lap` after `cap`
more operations. -/
theorem stampOf_add_cap (cap L c : Nat) (hc : 0 < cap) :
    stampOf cap L (c + cap) = stampOf cap L c + L := by
  rw [stampOf, stampOf, Nat.add_div_right _ hc, Nat.add_mod_right, Nat.succ_mul]
  omega

/-- `stampOf` of a successor inside a lap. -/
theorem stampOf_succ (cap L c : Nat) (h : c % cap + 1 < cap) :
    stampOf cap L (c + 1) = stampOf cap L c + 1 := by
  have hc : 0 < cap := by omega
  have hdm := Nat.div_add_mod c cap
  have h1 : (c + 1) / cap = c / cap := by
    rw [show c + 1 = c % cap + 1 + cap * (c / cap) by omega,
      Nat.add_mul_div_left _ _ hc, Nat.div_eq_of_lt (by omega)]
    omega
  have h2 : (c + 1) % cap = c % cap + 1 := by
    rw [show c + 1 = c % cap + 1 + cap * (c / cap) by omega,
      Nat.add_mul_mod_self_left, Nat.mod_eq_of_lt (by omega)]
  rw [stampOf, stampOf, h1, h2]
  omega

/-- `stampOf` of a successor that wraps to the next lap. -/
theorem stampOf_succ_wrap (cap L c : Nat) (hc : 0 < cap)
    (h : c % cap + 1 = cap) :
    stampOf cap L (c + 1) + cap = stampOf cap L c + 1 + L := by
  have hdm := Nat.div_add_mod c cap
  have h1 : (c + 1) / cap = c / cap + 1 := by
    rw [show c + 1 = cap + cap * (c / cap) by omega,
      Nat.add_mul_div_left _ _ hc, Nat.div_self hc]
    omega
  have h2 : (c + 1) % cap = 0 := by
    rw [show c + 1 = cap + cap * (c / cap) by omega,
      Nat.add_mul_mod_self_left, Nat.mod_self]
  rw [stampOf, stampOf, h1, h2, Nat.succ_mul]
  omega

/-- `candOf cap p i` is at least `p`. -/
theorem candOf_ge (cap p i : Nat) : p ≤ candOf cap p i :=
  Nat.le_add_right _ _

/-- `candOf cap p i` is under `p + cap`. -/
theorem candOf_lt (cap p i : Nat) (hc : 0 < cap) : candOf cap p i < p + cap := by
  have := Nat.mod_lt (i + cap - p % cap) hc
  rw [candOf]
  omega

/-- `candOf cap p i` is congruent to `i`. -/
theorem candOf_mod (cap p i : Nat) (hc : 0 < cap) (hi : i < cap) :
    candOf cap p i % cap = i := by
  have hp : p % cap < cap := Nat.mod_lt _ hc
  have h1 : p % cap + (i + cap - p % cap) = i + cap := by omega
  calc (p + (i + cap - p % cap) % cap) % cap
      = (p % cap + (i + cap - p % cap) % cap % cap) % cap := by
        rw [← Nat.add_mod]
    _ = (p % cap + (i + cap - p % cap) % cap) % cap := by
        rw [Nat.mod_mod_of_dvd _ dvd_rfl]
    _ = (p % cap + (i + cap - p % cap)) % cap := by
        rw [Nat.add_comm (p % cap), Nat.mod_add_mod, Nat.add_comm]
    _ = (i + cap) % cap := by rw [h1]
    _ = i % cap := Nat.add_mod_right i cap
    _ = i := Nat.mod_eq_of_lt hi

/-- Two numbers with the same residue lying within `cap` of each other are
equal. -/
theorem mod_eq_unique (cap a b : Nat) (hc : 0 < cap) (hab : a % cap = b % cap)
    (h1 : a ≤ b) (h2 : b < a + cap) : a = b := by
  have hd : cap ∣ b - a := (Nat.modEq_iff_dvd' h1).mp hab
  have := Nat.eq_zero_of_dvd_of_lt hd
  omega

/-- `candOf` is the unique member of `[p, p + cap)` with a given
residue. -/
theorem candOf_eq (cap p c : Nat) (hc : 0 < cap) (h1 : p ≤ c)
    (h2 : c < p + cap) : candOf cap p (c % cap) = c := by
  have hm := candOf_mod cap p (c % cap) hc (Nat.mod_lt _ hc)
  have hg := candOf_ge cap p (c % cap)
  have hl := candOf_lt cap p (c % cap) hc
  rcases le_total (candOf cap p (c % cap)) c with h | h
  · exact mod_eq_unique cap _ _ hc (by rw [hm]) h (by omega)
  · exact (mod_eq_unique cap _ _ hc (by rw [hm]) h (by omega)).symm

/-- The slot the head points at is the slot of pop number `p`. -/
theorem candOf_self (cap p : Nat) (hc : 0 < cap) : candOf cap p (p % cap) = p :=
  candOf_eq cap p p hc le_rfl (by omega)

/-- After popping `p`, the head slot's next use is push `p + cap`. -/
theorem candOf_succ_self (cap p : Nat) (hc : 0 < cap) :
    candOf cap (p + 1) (p % cap) = p + cap := by
  have h := candOf_eq cap (p + 1) (p + cap) hc (by omega) (by omega)
  rwa [Nat.add_mod_right] at h

/-- Slots other than the head slot keep their candidate across a pop. -/
theorem candOf_succ_ne (cap p i : Nat) (hc : 0 < cap) (hi : i < cap)
    (hne : i ≠ p % cap) : candOf cap (p + 1) i = candOf cap p i := by
  have h1 := candOf_mod cap p i hc hi
  have h2 := candOf_mod cap (p + 1) i hc hi
  have h3 := candOf_ge cap p i
  have h4 := candOf_lt cap p i hc
  have h5 := candOf_ge cap (p + 1) i
  have h6 := candOf_lt cap (p + 1) i hc
  have h7 : candOf cap p i ≠ p := by
    intro he
    apply hne
    rw [← h1, he]
  rcases le_total (candOf cap (p + 1) i) (candOf cap p i) with h | h
  · exact mod_eq_unique cap _ _ hc (h2.trans h1.symm) h (by omega)
  · exact (mod_eq_unique cap _ _ hc (h1.trans h2.symm) h (by omega)).symm

/-- `getD` after `set` at the written index. -/
theorem getD_set_self (xs : List β) (j : Nat) (v d : β) (hj : j < xs.length) :
    (xs.set j v).getD j d = v := by
  rw [List.getD_eq_getElem?_getD, List.getElem?_set, if_pos rfl, if_pos hj]
  rfl

/-- `getD` after `set` at another index. -/
theorem getD_set_other (xs : List β) (i j : Nat) (v d : β) (hne : j ≠ i) :
    (xs.set j v).getD i d = xs.getD i d := by
  rw [List.getD_eq_getElem?_getD, List.getElem?_set, if_neg hne,
    ← List.getD_eq_getElem?_getD]

/-- `getD` over `List.range`. -/
theorem getD_range (n i : Nat) (hi : i < n) : (List.range n).getD i 0 = i := by
  rw [List.getD_eq_getElem?_getD, List.getElem?_range hi]
  rfl

/-! ### Head/tail stamp facts

`head`/`tail` always hold `stampOf cap one_lap c % 2^64` for the respective
operation count `c`; these lemmas compute the bit-operations `start_send`
and `start_recv` apply to them. -/

/-- The mark bit of a head/tail stamp value is clear. -/
theorem stamp_mod_testBit (cap m c : Nat) (hc : 0 < cap) (hcap : cap < 2 ^ m) :
    (stampOf cap (2 ^ (m + 1)) c % U64).testBit m = false := by
  have hU : U64 = 2 ^ 64 := by norm_num [U64]
  rw [hU, Nat.testBit_mod_two_pow]
  have h : (stampOf cap (2 ^ (m + 1)) c).testBit m = false :=
    stampLike_testBit _ _ _ (lt_trans (Nat.mod_lt _ hc) hcap)
  simp [h]

/-- `tail & mark_bit = 0` on a clean stamp. -/
theorem stamp_mod_and_mark (cap m c : Nat) (hc : 0 < cap) (hcap : cap < 2 ^ m) :
    stampOf cap (2 ^ (m + 1)) c % U64 &&& 2 ^ m = 0 :=
  and_single_pow _ _ (stamp_mod_testBit cap m c hc hcap)

/-- `tail & (mark_bit - 1)` extracts the slot index. -/
theorem stamp_mod_and_index (cap m c : Nat) (hc : 0 < cap) (hcap : cap < 2 ^ m)
    (hm : m + 1 ≤ 63) :
    stampOf cap (2 ^ (m + 1)) c % U64 &&& (2 ^ m - 1) = c % cap := by
  have hU : U64 = 2 ^ 64 := by norm_num [U64]
  rw [and_pow_sub_one, hU, Nat.mod_mod_of_dvd _ (pow_dvd_pow 2 (by omega))]
  exact stampOf_mod _ _ _ _ ⟨2, by ring⟩ (lt_trans (Nat.mod_lt _ hc) hcap)

/-- A head/tail stamp value reduced mod `one_lap` is the slot index. -/
theorem stamp_mod_lap (cap m c : Nat) (hc : 0 < cap) (hcap : cap < 2 ^ m)
    (hm : m + 1 ≤ 63) :
    stampOf cap (2 ^ (m + 1)) c % U64 % 2 ^ (m + 1) = c % cap := by
  have hU : U64 = 2 ^ 64 := by norm_num [U64]
  rw [hU, Nat.mod_mod_of_dvd _ (pow_dvd_pow 2 (by omega))]
  exact stampOf_mod _ _ _ _ dvd_rfl
    (lt_trans (Nat.mod_lt _ hc) (lt_trans hcap (Nat.pow_lt_pow_right (by omega) (by omega))))

/-- `tail & !(one_lap - 1)` extracts the lap. -/
theorem stamp_mod_and_lapmask (cap m c : Nat) (hc : 0 < cap) (hcap : cap < 2 ^ m)
    (hm : m + 1 ≤ 63) :
    stampOf cap (2 ^ (m + 1)) c % U64 &&& lnot (2 ^ (m + 1) - 1) =
      stampOf cap (2 ^ (m + 1)) c % U64 - c % cap := by
  have hU0 : 0 < U64 := by norm_num [U64]
  rw [and_lnot_pow_sub_one _ _ (Nat.mod_lt _ hU0) (by omega),
    stamp_mod_lap cap m c hc hcap hm]

/-- `tail & !mark_bit` is the identity on a clean stamp. -/
theorem stamp_mod_and_lnot_mark (cap m c : Nat) (hc : 0 < cap) (hcap : cap < 2 ^ m)
    (hm : m + 1 ≤ 63) :
    stampOf cap (2 ^ (m + 1)) c % U64 &&& lnot (2 ^ m) =
      stampOf cap (2 ^ (m + 1)) c % U64 := by
  have hU0 : 0 < U64 := by norm_num [U64]
  exact and_lnot_single _ _ (Nat.mod_lt _ hU0) (by omega)
    (stamp_mod_testBit cap m c hc hcap)

/-- The slot index is bounded by a head/tail stamp value. -/
theorem stamp_mod_index_le (cap m c : Nat) (hc : 0 < cap) (hcap : cap < 2 ^ m)
    (hm : m + 1 ≤ 63) :
    c % cap ≤ stampOf cap (2 ^ (m + 1)) c % U64 := by
  conv_lhs => rw [← stamp_mod_lap cap m c hc hcap hm]
  exact Nat.mod_le _ _

/-! ### The four sequential channel transitions

Under the abstraction invariant, a sequential `try_send` succeeds exactly
when the queue is below capacity and `try_recv` exactly when it is
non-empty, each re-establishing the invariant; the `stuck` retry paths are
never taken. -/

/-- `try_send` on a channel below capacity: the message is accepted and
appended. -/
theorem trySend_ok {ch : Chan T} {m p : Nat} {l : List T}
    (inv : ChanInv ch m p l) (hlt : l.length < ch.cap) (msg : T) :
    (ch.trySend msg).1 = SendRes.ok ∧
    ChanInv (ch.trySend msg).2 m p (l ++ [msg]) ∧
    (ch.trySend msg).2.cap = ch.cap := by
  obtain ⟨hmark, hlap, hm63, hcpos, hclt, hslen, hmlen, hhead, htail, hlen, hslot⟩ := inv
  have hq : p ≤ p + l.length := Nat.le_add_right _ _
  have hiq : (p + l.length) % ch.cap < ch.cap := Nat.mod_lt _ hcpos
  have hmark0 : ch.tail &&& ch.markBit = 0 := by
    rw [htail, hmark, hlap]
    exact stamp_mod_and_mark _ _ _ hcpos hclt
  have hidx : ch.tail &&& (ch.markBit - 1) = (p + l.length) % ch.cap := by
    rw [htail, hmark, hlap]
    exact stamp_mod_and_index _ _ _ hcpos hclt hm63
  have hcand : candOf ch.cap p ((p + l.length) % ch.cap) = p + l.length :=
    candOf_eq _ _ _ hcpos hq (by omega)
  have hstamp : ch.stamps.getD ((p + l.length) % ch.cap) 0 =
      stampOf ch.cap ch.oneLap (p + l.length) % U64 := by
    have h := (hslot _ hiq).2 (by rw [hcand])
    rw [hcand] at h
    exact h.1
  have hguard : ch.tail = ch.stamps.getD ((p + l.length) % ch.cap) 0 := by
    rw [hstamp, htail]
  have key : ch.trySend msg =
      (SendRes.ok,
        { ch with
            tail := if (p + l.length) % ch.cap + 1 < ch.cap
              then (ch.tail + 1) % U64
              else ((ch.tail &&& lnot (ch.oneLap - 1)) + ch.oneLap) % U64
            msgs := ch.msgs.set ((p + l.length) % ch.cap) (some msg)
            stamps := ch.stamps.set ((p + l.length) % ch.cap) ((ch.tail + 1) % U64) }) := by
    simp only [Chan.trySend, hmark0, hidx]
    rw [if_neg (by omega), if_pos hguard]
  have htailnew : (if (p + l.length) % ch.cap + 1 < ch.cap
      then (ch.tail + 1) % U64
      else ((ch.tail &&& lnot (ch.oneLap - 1)) + ch.oneLap) % U64) =
      stampOf ch.cap ch.oneLap (p + l.length + 1) % U64 := by
    by_cases hw : (p + l.length) % ch.cap + 1 < ch.cap
    · rw [if_pos hw, htail, Nat.mod_add_mod, stampOf_succ _ _ _ hw]
    · have hw' : (p + l.length) % ch.cap + 1 = ch.cap := by omega
      rw [if_neg hw, htail, hlap]
      rw [stamp_mod_and_lapmask _ _ _ hcpos hclt hm63]
      have hsw := stampOf_succ_wrap ch.cap (2 ^ (m + 1)) (p + l.length) hcpos hw'
      have hle := stamp_mod_index_le ch.cap m (p + l.length) hcpos hclt hm63
      simp only [U64] at *
      omega
  rw [key]
  dsimp only
  refine ⟨rfl, ?_, rfl⟩
  refine ⟨hmark, hlap, hm63, hcpos, hclt, ?_, ?_, hhead, ?_, ?_, ?_⟩
  · simpa [List.length_set] using hslen
  · simpa [List.length_set] using hmlen
  · show (if (p + l.length) % ch.cap + 1 < ch.cap
      then (ch.tail + 1) % U64
      else ((ch.tail &&& lnot (ch.oneLap - 1)) + ch.oneLap) % U64) =
      stampOf ch.cap ch.oneLap (p + (l ++ [msg]).length) % U64
    have harg : p + (l ++ [msg]).length = p + l.length + 1 := by
      simp only [List.length_append, List.length_cons, List.length_nil]
      omega
    rw [harg]
    exact htailnew
  · show (l ++ [msg]).length ≤ ch.cap
    simp only [List.length_append, List.length_cons, List.length_nil]
    omega
  · dsimp only
    intro i hi
    by_cases hie : i = (p + l.length) % ch.cap
    · subst hie
      have hlen2 : p + (l ++ [msg]).length = p + l.length + 1 := by
        simp only [List.length_append, List.length_cons, List.length_nil]
        omega
      have hbs : (p + l.length) % ch.cap < ch.stamps.length := by omega
      have hbm : (p + l.length) % ch.cap < ch.msgs.length := by omega
      refine ⟨fun _ => ?_, fun habs => ?_⟩
      · constructor
        · rw [getD_set_self _ _ _ _ hbs, hcand, htail, Nat.mod_add_mod]
        · rw [getD_set_self _ _ _ _ hbm, hcand]
          have : p + l.length - p = l.length := by omega
          rw [this]
          exact (List.getElem?_concat_length l msg).symm
      · rw [hcand, hlen2] at habs
        omega
    · have hgs : (ch.stamps.set ((p + l.length) % ch.cap) ((ch.tail + 1) % U64)).getD i 0 =
          ch.stamps.getD i 0 := getD_set_other _ _ _ _ _ (Ne.symm hie)
      have hgm : (ch.msgs.set ((p + l.length) % ch.cap) (some msg)).getD i none =
          ch.msgs.getD i none := getD_set_other _ _ _ _ _ (Ne.symm hie)
      have hcne : candOf ch.cap p i ≠ p + l.length := by
        intro he
        apply hie
        rw [← candOf_mod ch.cap p i hcpos hi, he]
      have hlen2 : p + (l ++ [msg]).length = p + l.length + 1 := by
        simp only [List.length_append, List.length_cons, List.length_nil]
        omega
      rw [hgs, hgm, hlen2]
      have hge := candOf_ge ch.cap p i
      refine ⟨fun hocc => ?_, fun hfree => ?_⟩
      · have hocc' : candOf ch.cap p i < p + l.length := by omega
        obtain ⟨h1, h2⟩ := (hslot i hi).1 hocc'
        refine ⟨h1, ?_⟩
        rw [h2]
        exact (List.getElem?_append_left (by omega)).symm
      · have hfree' : p + l.length ≤ candOf ch.cap p i := by omega
        exact (hslot i hi).2 hfree'

/-- `try_send` on a channel at capacity: `Full`, state unchanged. -/
theorem trySend_full {ch : Chan T} {m p : Nat} {l : List T}
    (inv : ChanInv ch m p l) (hfull : l.length = ch.cap) (msg : T) :
    ch.trySend msg = (SendRes.full msg, ch) := by
  obtain ⟨hmark, hlap, hm63, hcpos, hclt, hslen, hmlen, hhead, htail, hlen, hslot⟩ := inv
  have hiq : (p + l.length) % ch.cap < ch.cap := Nat.mod_lt _ hcpos
  have hmark0 : ch.tail &&& ch.markBit = 0 := by
    rw [htail, hmark, hlap]
    exact stamp_mod_and_mark _ _ _ hcpos hclt
  have hidx : ch.tail &&& (ch.markBit - 1) = (p + l.length) % ch.cap := by
    rw [htail, hmark, hlap]
    exact stamp_mod_and_index _ _ _ hcpos hclt hm63
  have hqp : (p + l.length) % ch.cap = p % ch.cap := by
    rw [hfull]
    exact Nat.add_mod_right p ch.cap
  have hcand : candOf ch.cap p ((p + l.length) % ch.cap) = p := by
    rw [hqp]
    exact candOf_self _ _ hcpos
  have hocc := (hslot _ hiq).1 (by rw [hcand]; omega)
  rw [hcand] at hocc
  have hst := hocc.1
  have htail' : ch.tail = (stampOf ch.cap ch.oneLap p + ch.oneLap) % U64 := by
    rw [htail, show p + l.length = p + ch.cap by omega, stampOf_add_cap _ _ _ hcpos]
  have hL2 : 2 ≤ ch.oneLap := by
    rw [hlap]
    calc 2 = 2 ^ 1 := rfl
    _ ≤ 2 ^ (m + 1) := Nat.pow_le_pow_right (by omega) (by omega)
  have hL63 : ch.oneLap ≤ 2 ^ 63 := by
    rw [hlap]
    exact Nat.pow_le_pow_right (by omega) hm63
  have hne : ¬ (ch.tail = ch.stamps.getD ((p + l.length) % ch.cap) 0) := by
    rw [htail', hst]
    simp only [U64] at *
    omega
  have hc2 : (ch.stamps.getD ((p + l.length) % ch.cap) 0 + ch.oneLap) % U64 =
      (ch.tail + 1) % U64 := by
    rw [hst, htail']
    simp only [U64] at *
    omega
  have hc3 : (ch.head + ch.oneLap) % U64 = ch.tail := by
    rw [hhead, htail', Nat.mod_add_mod]
  simp only [Chan.trySend, hmark0, hidx]
  rw [if_neg (by omega), if_neg hne, if_pos hc2, if_pos hc3]

/-- `try_recv` on a non-empty channel: the front message is delivered and
removed. -/
theorem tryRecv_got {ch : Chan T} {m p : Nat} {x : T} {l : List T}
    (inv : ChanInv ch m p (x :: l)) :
    ch.tryRecv.1 = RecvRes.got x ∧
    ChanInv ch.tryRecv.2 m (p + 1) l ∧
    ch.tryRecv.2.cap = ch.cap := by
  obtain ⟨hmark, hlap, hm63, hcpos, hclt, hslen, hmlen, hhead, htail, hlen, hslot⟩ := inv
  have hip : p % ch.cap < ch.cap := Nat.mod_lt _ hcpos
  have hidx : ch.head &&& (ch.markBit - 1) = p % ch.cap := by
    rw [hhead, hmark, hlap]
    exact stamp_mod_and_index _ _ _ hcpos hclt hm63
  have hcand : candOf ch.cap p (p % ch.cap) = p := candOf_self _ _ hcpos
  have hocc := (hslot _ hip).1 (by rw [hcand]; simp)
  rw [hcand] at hocc
  have hst := hocc.1
  have hmsg : ch.msgs.getD (p % ch.cap) none = some x := by
    rw [hocc.2, Nat.sub_self]
    exact List.getElem?_cons_zero
  have hc1 : (ch.head + 1) % U64 = ch.stamps.getD (p % ch.cap) 0 := by
    rw [hhead, Nat.mod_add_mod, hst]
  have key : ch.tryRecv =
      (RecvRes.got x,
        { ch with
            head := if p % ch.cap + 1 < ch.cap
              then (ch.head + 1) % U64
              else ((ch.head &&& lnot (ch.oneLap - 1)) + ch.oneLap) % U64
            msgs := ch.msgs.set (p % ch.cap) none
            stamps := ch.stamps.set (p % ch.cap) ((ch.head + ch.oneLap) % U64) }) := by
    simp only [Chan.tryRecv, hidx, hmsg]
    rw [if_pos hc1]
  have hheadnew : (if p % ch.cap + 1 < ch.cap
      then (ch.head + 1) % U64
      else ((ch.head &&& lnot (ch.oneLap - 1)) + ch.oneLap) % U64) =
      stampOf ch.cap ch.oneLap (p + 1) % U64 := by
    by_cases hw : p % ch.cap + 1 < ch.cap
    · rw [if_pos hw, hhead, Nat.mod_add_mod, stampOf_succ _ _ _ hw]
    · have hw' : p % ch.cap + 1 = ch.cap := by omega
      rw [if_neg hw, hhead, hlap]
      rw [stamp_mod_and_lapmask _ _ _ hcpos hclt hm63]
      have hsw := stampOf_succ_wrap ch.cap (2 ^ (m + 1)) p hcpos hw'
      have hle := stamp_mod_index_le ch.cap m p hcpos hclt hm63
      simp only [U64] at *
      omega
  rw [key]
  dsimp only
  refine ⟨rfl, ?_, rfl⟩
  refine ⟨hmark, hlap, hm63, hcpos, hclt, ?_, ?_, ?_, ?_, ?_, ?_⟩
  · simpa [List.length_set] using hslen
  · simpa [List.length_set] using hmlen
  · exact hheadnew
  · show ch.tail = stampOf ch.cap ch.oneLap (p + 1 + l.length) % U64
    rw [htail]
    congr 2
    simp [List.length_cons]
    omega
  · show l.length ≤ ch.cap
    simp only [List.length_cons] at hlen
    omega
  · dsimp only
    intro i hi
    by_cases hie : i = p % ch.cap
    · subst hie
      have hcand' : candOf ch.cap (p + 1) (p % ch.cap) = p + ch.cap :=
        candOf_succ_self _ _ hcpos
      have hlcap : l.length + 1 ≤ ch.cap := by
        simpa [List.length_cons] using hlen
      have hbs : p % ch.cap < ch.stamps.length := by omega
      have hbm : p % ch.cap < ch.msgs.length := by omega
      refine ⟨fun habs => ?_, fun _ => ?_⟩
      · rw [hcand'] at habs
        omega
      · constructor
        · rw [getD_set_self _ _ _ _ hbs, hcand', hhead, Nat.mod_add_mod,
            stampOf_add_cap _ _ _ hcpos]
        · rw [getD_set_self _ _ _ _ hbm]
    · have hgs : (ch.stamps.set (p % ch.cap) ((ch.head + ch.oneLap) % U64)).getD i 0 =
          ch.stamps.getD i 0 := getD_set_other _ _ _ _ _ (Ne.symm hie)
      have hgm : (ch.msgs.set (p % ch.cap) none).getD i none =
          ch.msgs.getD i none := getD_set_other _ _ _ _ _ (Ne.symm hie)
      have hcand' : candOf ch.cap (p + 1) i = candOf ch.cap p i :=
        candOf_succ_ne _ _ _ hcpos hi hie
      have hcne : candOf ch.cap p i ≠ p := by
        intro he
        apply hie
        rw [← candOf_mod ch.cap p i hcpos hi, he]
      have hcge := candOf_ge ch.cap p i
      rw [hgs, hgm, hcand']
      refine ⟨fun hocc2 => ?_, fun hfree2 => ?_⟩
      · have hocc' : candOf ch.cap p i < p + (x :: l).length := by
          simp only [List.length_cons]
          omega
        obtain ⟨h1, h2⟩ := (hslot i hi).1 hocc'
        refine ⟨h1, ?_⟩
        rw [h2]
        have hsub : candOf ch.cap p i - p = (candOf ch.cap p i - (p + 1)) + 1 := by
          omega
        rw [hsub]
        exact List.getElem?_cons_succ
      · have hfree' : p + (x :: l).length ≤ candOf ch.cap p i := by
          simp only [List.length_cons]
          omega
        exact (hslot i hi).2 hfree'

/-- `try_recv` on an empty channel: `Empty`, state unchanged. -/
theorem tryRecv_empty {ch : Chan T} {m p : Nat}
    (inv : ChanInv ch m p []) : ch.tryRecv = (RecvRes.empty, ch) := by
  obtain ⟨hmark, hlap, hm63, hcpos, hclt, hslen, hmlen, hhead, htail, hlen, hslot⟩ := inv
  have hip : p % ch.cap < ch.cap := Nat.mod_lt _ hcpos
  have hidx : ch.head &&& (ch.markBit - 1) = p % ch.cap := by
    rw [hhead, hmark, hlap]
    exact stamp_mod_and_index _ _ _ hcpos hclt hm63
  have hcand : candOf ch.cap p (p % ch.cap) = p := candOf_self _ _ hcpos
  have hfree := (hslot _ hip).2 (by rw [hcand]; simp)
  rw [hcand] at hfree
  have hst : ch.stamps.getD (p % ch.cap) 0 = ch.head := by
    rw [hfree.1, hhead]
  have htail0 : ch.tail = ch.head := by
    rw [htail, hhead]
    simp
  have hc1 : ¬ ((ch.head + 1) % U64 = ch.stamps.getD (p % ch.cap) 0) := by
    rw [hst, hhead]
    simp only [U64]
    omega
  have hc3 : ch.tail &&& lnot ch.markBit = ch.head := by
    rw [htail0, hhead, hmark, hlap]
    exact stamp_mod_and_lnot_mark _ _ _ hcpos hclt hm63
  have hmark0 : ch.tail &&& ch.markBit = 0 := by
    rw [htail0, hhead, hmark, hlap]
    exact stamp_mod_and_mark _ _ _ hcpos hclt
  simp only [Chan.tryRecv, hidx]
  rw [if_neg hc1, if_pos hst, if_pos hc3, if_neg (by omega)]

/-- `(2 + 1).next_power_of_two() = 4`, from the bounds and the
power-of-two property. -/
theorem nextPowerOfTwo_three : (3 : Nat).nextPowerOfTwo = 4 := by
  obtain ⟨k, hk⟩ := Nat.isPowerOfTwo_nextPowerOfTwo 3
  have h1 := nextPowerOfTwo_ge 3
  have h2 := nextPowerOfTwo_lt 3 (by omega)
  match k, hk with
  | 0, hk => omega
  | 1, hk => omega
  | 2, hk => omega
  | k + 3, hk =>
    have : (2 : Nat) ^ 3 ≤ 2 ^ (k + 3) := Nat.pow_le_pow_right (by omega) (by omega)
    omega

/-- Sanity check: the capacity-2 literal state is `with_capacity(2)`
(`mark_bit = 4`, `one_lap = 8`, stamps `0,1`). -/
example : Chan.withCapacity Nat 2 = chanT2 := by
  rw [Chan.withCapacity, show (2 : Nat) + 1 = 3 from rfl, nextPowerOfTwo_three]
  rfl

/-- Sanity check, mirroring the `test` in mpmc.rs: sends are accepted up
to capacity and then rejected with `Full`; receives deliver in send order
and then report `Empty`. -/
example : Chan.run chanT2 [ChanOp.send 10, ChanOp.send 20, ChanOp.send 30,
    ChanOp.recv, ChanOp.recv, ChanOp.recv] =
    [ChanOut.sent, ChanOut.sent, ChanOut.sendFull 30,
     ChanOut.got 10, ChanOut.got 20, ChanOut.empty] := by decide

/-- Sanity check: the stamp scheme stays sound across several laps of the
ring. -/
example : Chan.run chanT2 [ChanOp.send 1, ChanOp.recv, ChanOp.send 2,
    ChanOp.recv, ChanOp.send 3, ChanOp.recv, ChanOp.send 4, ChanOp.recv] =
    [ChanOut.sent, ChanOut.got 1, ChanOut.sent, ChanOut.got 2,
     ChanOut.sent, ChanOut.got 3, ChanOut.sent, ChanOut.got 4] := by decide

/-- Sanity check: a disconnected channel rejects sends and receives with
the disconnect error. -/
example : (Chan.trySend (Chan.disconnect chanT2) 5).1 = SendRes.disconnected 5 ∧
    (Chan.tryRecv (Chan.disconnect chanT2)).1 = RecvRes.disconnected := by decide

/-- The queue abstracted from a channel fits in the capacity. -/
theorem chanInv_len_le {ch : Chan T} {m p : Nat} {l : List T}
    (inv : ChanInv ch m p l) : l.length ≤ ch.cap :=
  inv.2.2.2.2.2.2.2.2.2.1

/-- A fresh channel of positive capacity under `2^62` satisfies the
abstraction invariant with the empty queue. -/
theorem withCapacity_inv (T : Type) (cap : Nat) (h1 : 0 < cap)
    (h2 : cap < 2 ^ 62) : ∃ m, ChanInv (Chan.withCapacity T cap) m 0 [] := by
  obtain ⟨m, hm⟩ := Nat.isPowerOfTwo_nextPowerOfTwo (cap + 1)
  have hge := nextPowerOfTwo_ge (cap + 1)
  have hltp := nextPowerOfTwo_lt (cap + 1) (by omega)
  have hp63 : (2 : Nat) ^ m < 2 ^ 63 := by
    rw [← hm]
    calc (cap + 1).nextPowerOfTwo < 2 * (cap + 1) := hltp
    _ ≤ 2 ^ 63 := by omega
  have hmlt : m < 63 := by
    by_contra hcon
    have : (2 : Nat) ^ 63 ≤ 2 ^ m := Nat.pow_le_pow_right (by omega) (by omega)
    omega
  have hcaplt : cap < 2 ^ m := by
    rw [hm] at hge
    omega
  refine ⟨m, ?_⟩
  unfold ChanInv Chan.withCapacity
  dsimp only
  refine ⟨hm, ?_, by omega, h1, hcaplt, ?_, ?_, ?_, ?_, ?_, ?_⟩
  · rw [hm, Nat.pow_succ]
  · exact List.length_range cap
  · exact List.length_replicate cap none
  · rw [stampOf_zero]
    rfl
  · rw [List.length_nil, Nat.add_zero, stampOf_zero]
    rfl
  · simp
  · intro i hi
    have hci : candOf cap 0 i = i := by
      have h := candOf_eq cap 0 i h1 (Nat.zero_le _) (by omega)
      rwa [Nat.mod_eq_of_lt hi] at h
    rw [hci]
    refine ⟨fun habs => by simp at habs, fun _ => ⟨?_, getD_replicate_none _ _⟩⟩
    rw [getD_range cap i hi, stampOf, Nat.div_eq_of_lt hi, Nat.mod_eq_of_lt hi,
      Nat.zero_mul, Nat.zero_add]
    have : i < U64 := by
      simp only [U64]
      omega
    rw [Nat.mod_eq_of_lt this]

/-- Trace equivalence under the invariant: a channel representing queue `l`
and the specification queue `l` produce identical result traces. -/
theorem run_eq_aux (m : Nat) :
    ∀ (ops : List (ChanOp T)) (p : Nat) (l : List T) (ch : Chan T),
      ChanInv ch m p l →
      Chan.run ch ops = Fifo.run { q := l, cap := ch.cap } ops := by
  intro ops
  induction ops with
  | nil =>
    intro p l ch _
    rfl
  | cons op rest ih =>
    intro p l ch hinv
    cases op with
    | send msg =>
      by_cases hfull : l.length = ch.cap
      · have hc := trySend_full hinv hfull msg
        have hf : Fifo.trySend { q := l, cap := ch.cap } msg =
            (SendRes.full msg, { q := l, cap := ch.cap }) := by
          rw [Fifo.trySend]
          dsimp only
          rw [if_pos hfull]
        simp only [Chan.run, Fifo.run, hc, hf]
        exact congrArg _ (ih p l ch hinv)
      · have hlt : l.length < ch.cap :=
          lt_of_le_of_ne (chanInv_len_le hinv) hfull
        obtain ⟨hok, hinv', hcap'⟩ := trySend_ok hinv hlt msg
        have hf : Fifo.trySend { q := l, cap := ch.cap } msg =
            (SendRes.ok, { q := l ++ [msg], cap := ch.cap }) := by
          rw [Fifo.trySend]
          dsimp only
          rw [if_neg hfull]
        simp only [Chan.run, Fifo.run, hf, hok]
        have h := ih p (l ++ [msg]) (ch.trySend msg).2 hinv'
        rw [hcap'] at h
        exact congrArg _ h
    | recv =>
      cases l with
      | nil =>
        have hc := tryRecv_empty hinv
        have hf : Fifo.tryRecv { q := ([] : List T), cap := ch.cap } =
            (RecvRes.empty, { q := ([] : List T), cap := ch.cap }) := rfl
        simp only [Chan.run, Fifo.run, hc, hf]
        exact congrArg _ (ih p [] ch hinv)
      | cons x l' =>
        obtain ⟨hgot, hinv', hcap'⟩ := tryRecv_got hinv
        have hf : Fifo.tryRecv { q := x :: l', cap := ch.cap } =
            (RecvRes.got x, { q := l', cap := ch.cap }) := rfl
        simp only [Chan.run, Fifo.run, hf, hgot]
        have h := ih (p + 1) l' ch.tryRecv.2 hinv'
        rw [hcap'] at h
        exact congrArg _ h

/-- **C6** — Channel FIFO: for one producer and one consumer calling
`try_send`/`try_receive` sequentially, a bounded channel of positive
capacity (below `2^62`, so that the lap/mark-bit arithmetic fits in
`usize`) produces, on every call trace, exactly the result trace of a
bounded FIFO queue of the construction capacity: messages are received in
send order, `try_send` fails with `Full` exactly when the queue holds
`cap` messages, and `try_receive` fails with `Empty` exactly when it is
empty. -/
theorem channel_c6_fifo_refinement (T : Type) (cap : Nat) (hpos : 0 < cap)
    (hlt : cap < 2 ^ 62) (ops : List (ChanOp T)) :
    Chan.run (Chan.withCapacity T cap) ops = Fifo.run (Fifo.init T cap) ops := by
  obtain ⟨m, hinv⟩ := withCapacity_inv T cap hpos hlt
  exact run_eq_aux m ops 0 [] (Chan.withCapacity T cap) hinv

/-- Witness for `channel_c6_fifo_refinement`: capacity 2, a trace that
exercises acceptance, `Full` rejection, delivery in order and `Empty`. -/
theorem channel_c6_fifo_refinement_witness :
    0 < 2 ∧ 2 < 2 ^ 62 ∧
    Chan.run (Chan.withCapacity Nat 2)
        [ChanOp.send 10, ChanOp.send 20, ChanOp.send 30, ChanOp.recv,
          ChanOp.recv, ChanOp.recv] =
      Fifo.run (Fifo.init Nat 2)
        [ChanOp.send 10, ChanOp.send 20, ChanOp.send 30, ChanOp.recv,
          ChanOp.recv, ChanOp.recv] :=
  ⟨by decide, by decide,
    channel_c6_fifo_refinement Nat 2 (by decide) (by decide) _⟩

/-! ## Lemmas about the non-blocking message streams -/

/-- **C10** — Silent truncation on receive: with a message `data` pending
at the front of the stream's channel, `try_recv` into a buffer strictly
shorter than `data` copies exactly `buf.length` bytes (the message's
prefix), returns `Some(Ok(buf.length))`, and discards the rest of the
message — the channel afterwards holds exactly the remaining queue `rest`,
with no error and no redelivery of the truncated tail.  A buffer at least
as long as the message receives all of it and its full length is
returned. -/
theorem stream_c10_truncation (ch : Chan (List α)) (m p : Nat)
    (data : List α) (rest : List (List α)) (buf : List α)
    (hinv : ChanInv ch m p (data :: rest)) :
    ∃ ch', ChanInv ch' m (p + 1) rest ∧
      streamTryRecv ch buf =
        (if buf.length < data.length
          then (some (Except.ok buf.length), data.take buf.length, ch')
          else (some (Except.ok data.length),
            if data.length < buf.length then data ++ buf.drop data.length
            else data, ch')) := by
  obtain ⟨hgot, hinv', -⟩ := tryRecv_got hinv
  rcases htr : ch.tryRecv with ⟨r, ch2⟩
  rw [htr] at hgot hinv'
  simp only at hgot hinv'
  subst hgot
  refine ⟨ch2, hinv', ?_⟩
  simp only [streamTryRecv, htr]
  split_ifs <;> first | rfl | (exfalso; omega)

/-- Witness for `stream_c10_truncation`: a capacity-2 channel holding the
3-byte message `[1,2,3]`, received into a 2-byte buffer. -/
theorem stream_c10_truncation_witness :
    ChanInv (Chan.trySend chanB2 [1, 2, 3]).2 2 0 [[1, 2, 3]] ∧
    ∃ ch', ChanInv ch' 2 (0 + 1) [] ∧
      streamTryRecv (Chan.trySend chanB2 [1, 2, 3]).2 [0, 0] =
        (if ([0, 0] : List Nat).length < ([1, 2, 3] : List Nat).length
          then (some (Except.ok ([0, 0] : List Nat).length),
            ([1, 2, 3] : List Nat).take ([0, 0] : List Nat).length, ch')
          else (some (Except.ok ([1, 2, 3] : List Nat).length),
            if ([1, 2, 3] : List Nat).length < ([0, 0] : List Nat).length
            then ([1, 2, 3] : List Nat) ++ ([0, 0] : List Nat).drop ([1, 2, 3] : List Nat).length
            else [1, 2, 3], ch')) :=
  ⟨by decide,
    stream_c10_truncation (Chan.trySend chanB2 [1, 2, 3]).2 2 0
      [1, 2, 3] [] [0, 0] (by decide)⟩

/-- A `try_send` that reports a disconnect hands back the message it was
given and leaves the channel unchanged. -/
theorem trySend_disconnected_msg {ch : Chan T} {msg d : T} {ch' : Chan T}
    (h : ch.trySend msg = (SendRes.disconnected d, ch')) :
    d = msg ∧ ch' = ch := by
  revert h
  simp only [Chan.trySend]
  split_ifs <;> intro h <;> injection h with ha hb
  all_goals first
    | exact SendRes.noConfusion ha
    | (injection ha with hm
       exact ⟨hm.symm, hb.symm⟩)

/-- `on_recv` reporting a disconnect hands back exactly the datagram it
was given. -/
theorem chOnRecv_disconnected_msg {b : MsgChannel Msg} {data d : Msg}
    {b' : MsgChannel Msg}
    (h : chOnRecv b data = (OnRecvRes.disconnected d, b')) : d = data := by
  unfold chOnRecv at h
  rcases hts : b.sendCh.trySend data with ⟨r, ch⟩
  rw [hts] at h
  cases r with
  | ok => simp at h
  | full msg => simp at h
  | stuck => simp at h
  | disconnected msg =>
    simp only [Prod.mk.injEq, OnRecvRes.disconnected.injEq] at h
    obtain ⟨h1, -⟩ := trySend_disconnected_msg hts
    rw [← h.1, h1]

/-- `emplace_new_stream_with_data`: the injection the Rust code `unwrap`s
always succeeds (the fresh capacity-1024 channel accepts one message), and
the returned stream's receive channel holds exactly the one datagram. -/
theorem emplaceWithData_spec (Msg : Type) (data : Msg) :
    (emplaceWithData Msg data).1 = OnRecvRes.ok ∧
    ∃ m, ChanInv (emplaceWithData Msg data).2.1.rxCh m 0 [data] := by
  obtain ⟨m, hinv⟩ := withCapacity_inv Msg 1024 (by omega) (by norm_num)
  have hlt : ([] : List Msg).length < (Chan.withCapacity Msg 1024).cap := by
    show 0 < 1024
    omega
  obtain ⟨hok, hinv', -⟩ := trySend_ok hinv hlt data
  simp only [List.nil_append] at hinv'
  rcases hts : (Chan.withCapacity Msg 1024).trySend data with ⟨r, ch2⟩
  rw [hts] at hok hinv'
  simp only at hok hinv'
  subst hok
  simp only [emplaceWithData, chOnRecv, hts]
  exact ⟨trivial, m, hinv'⟩

/-- **C7** — First-message preservation: whenever `on_rx` returns a new
message stream — first contact from an unknown peer, or replacement after
the existing backend reports a disconnect — the datagram that triggered
the creation has been injected into the stream's channel before the
stream is returned (the `unwrap` in `emplace_new_stream_with_data` always
succeeds), and the first `try_recv` on the returned stream yields exactly
that datagram. -/
theorem stream_c7_first_message (Msg A : Type) [DecidableEq A]
    (col : List (A × MsgChannel Msg)) (data : Msg) (addr : A) :
    (emplaceWithData Msg data).1 = OnRecvRes.ok ∧
    ((onRx col data addr).1.map fun s => s.rxCh.tryRecv.1) =
      (onRx col data addr).1.map fun _ => RecvRes.got data := by
  have hfirst : ∀ d : Msg, (emplaceWithData Msg d).2.1.rxCh.tryRecv.1 =
      RecvRes.got d := by
    intro d
    obtain ⟨-, m, hinv⟩ := emplaceWithData_spec Msg d
    exact (tryRecv_got hinv).1
  refine ⟨(emplaceWithData_spec Msg data).1, ?_⟩
  unfold onRx
  rcases hl : colLookup addr col with _ | b
  · simp [hfirst data]
  · dsimp only
    rcases hr : chOnRecv b data with ⟨r, b'⟩
    cases r with
    | ok => simp
    | dropped => simp
    | stuck => simp
    | disconnected d =>
      have hd : d = data := chOnRecv_disconnected_msg hr
      subst hd
      simp [hfirst]

/-- `try_tx` with an occupied rebuffer slot yields the rebuffered message
without touching the channel. -/
theorem tryTx_buffered (b : MsgChannel Msg) (d : Msg) (h : b.buffered = some d) :
    tryTx b = (TxRes.ok d, { b with buffered := none }) := by
  unfold tryTx
  rw [h]

/-- `try_tx` with an empty rebuffer slot pops the stream's queue. -/
theorem tryTx_recv_got {b : MsgChannel Msg} {m p : Nat} {x : Msg} {l : List Msg}
    (hbuf : b.buffered = none) (hinv : ChanInv b.recvCh m p (x :: l)) :
    tryTx b = (TxRes.ok x, { b with recvCh := b.recvCh.tryRecv.2 }) ∧
    ChanInv b.recvCh.tryRecv.2 m (p + 1) l := by
  obtain ⟨hgot, hinv', -⟩ := tryRecv_got hinv
  refine ⟨?_, hinv'⟩
  have hpair : b.recvCh.tryRecv = (RecvRes.got x, b.recvCh.tryRecv.2) := by
    rw [← hgot]
  unfold tryTx
  rw [hbuf, hpair]

/-- **C8** — Outbound-pump backpressure safety: pumping a stream whose
queue holds `l` (rebuffer slot empty) against a transport that accepts
`k` messages and then would-blocks sends exactly `l.take k`, stores the
`(k+1)`-st message in the stream's single rebuffer slot, and stops
consuming the stream's queue there — the channel afterwards holds exactly
`l.drop (k+1)`, and all other stream state is untouched.  The next
`try_tx` on the stream yields the rebuffered message, with the channel
not consulted. -/
theorem stream_c8_backpressure :
    ∀ (k : Nat) (b : MsgChannel Msg) (m p : Nat) (l : List Msg)
      (hinv : ChanInv b.recvCh m p l) (hbuf : b.buffered = none)
      (hk : k < l.length),
    ∃ ch', ChanInv ch' m (p + k + 1) (l.drop (k + 1)) ∧
      pumpStream b (List.replicate k IoRes.ok ++ [IoRes.wouldBlock]) =
        ({ b with buffered := some (l.get ⟨k, hk⟩), recvCh := ch' },
          l.take k, false) ∧
      tryTx { b with buffered := some (l.get ⟨k, hk⟩), recvCh := ch' } =
        (TxRes.ok (l.get ⟨k, hk⟩), { b with buffered := none, recvCh := ch' }) := by
  intro k
  induction k with
  | zero =>
    intro b m p l hinv hbuf hk
    revert hinv hk
    cases l with
    | nil =>
      intro hinv hk
      exact absurd hk (by simp)
    | cons x l' =>
      intro hinv hk
      obtain ⟨htx, hinv'⟩ := tryTx_recv_got hbuf hinv
      refine ⟨b.recvCh.tryRecv.2, hinv', ?_, ?_⟩
      · show pumpStream b [IoRes.wouldBlock] = _
        simp only [pumpStream, htx]
        rfl
      · exact tryTx_buffered _ _ rfl
  | succ k ih =>
    intro b m p l hinv hbuf hk
    revert hinv hk
    cases l with
    | nil =>
      intro hinv hk
      exact absurd hk (by simp)
    | cons x l' =>
      intro hinv hk
      obtain ⟨htx, hinv'⟩ := tryTx_recv_got hbuf hinv
      have hk' : k < l'.length := by
        have h2 : k + 1 < l'.length + 1 := by simpa using hk
        omega
      obtain ⟨ch', hinv2, hpump, htx2⟩ :=
        ih { b with recvCh := b.recvCh.tryRecv.2 } m (p + 1) l' hinv' hbuf hk'
      refine ⟨ch', ?_, ?_, ?_⟩
      · have harg : p + 1 + k + 1 = p + (k + 1) + 1 := by omega
        rw [harg] at hinv2
        exact hinv2
      · rw [List.replicate_succ, List.cons_append]
        simp only [pumpStream, htx, hpump]
        rfl
      · exact htx2

/-- Witness for `stream_c8_backpressure`: a stream whose queue holds two
messages, pumped against a transport that accepts one and then
would-blocks. -/
theorem stream_c8_backpressure_witness :
    ChanInv (Chan.trySend (Chan.trySend chanT2 1).2 2).2 2 0 [1, 2] ∧
    ∃ ch', ChanInv ch' 2 (0 + 1 + 1) ([1, 2].drop (1 + 1)) ∧
      pumpStream
          { sendCh := chanT2
            recvCh := (Chan.trySend (Chan.trySend chanT2 1).2 2).2
            buffered := none
            dropped := 0 }
          (List.replicate 1 IoRes.ok ++ [IoRes.wouldBlock]) =
        ({ sendCh := chanT2
           recvCh := ch'
           buffered := some ([1, 2].get ⟨1, by decide⟩)
           dropped := 0 }, [1, 2].take 1, false) ∧
      tryTx
          { sendCh := chanT2
            recvCh := ch'
            buffered := some ([1, 2].get ⟨1, by decide⟩)
            dropped := 0 } =
        (TxRes.ok ([1, 2].get ⟨1, by decide⟩),
          { sendCh := chanT2
            recvCh := ch'
            buffered := none
            dropped := 0 }) :=
  ⟨by decide,
    stream_c8_backpressure 1
      { sendCh := chanT2
        recvCh := (Chan.trySend (Chan.trySend chanT2 1).2 2).2
        buffered := none
        dropped := 0 }
      2 0 [1, 2] (by decide) rfl (by decide)⟩

end RistRs
